import Mathlib

/-!
# Verification of the chameleon emitted-runtime templates

This file gives a shallow embedding of the runtime code emitted by the
chameleon grammar compiler, translated from the C template sources:

* `src/templates/head.c`        — PRNG (`internal_random`), seed constant,
  `TRIANGULAR_RANDOM` macro and `TRIANGULAR_LOOKUP_TABLE`;
* `src/templates/numbersets.c`  — the `_numberset_<id>` generators;
* `src/templates/full/mutations.c` — the per-non-terminal
  `_mutate_nonterm_<id>` functions (both the single-rule and the
  dispatching form);
* `src/template.c`              — the public ABI functions
  `chameleon_init`, `chameleon_destroy`, `chameleon_mutate`,
  `chameleon_generate` (this file is the development prototype of the
  emitted ABI tail; its `_mutate_nonterm_X/_mutate_nonterm_Y` bodies are an
  older revision, superseded by `src/templates/full/mutations.c`, which the
  claims cite for the per-non-terminal bodies).

The emitted code is one specialized C function per non-terminal, all
instances of one template.  The embedding is a single interpreter,
`mutateNonterm`, parameterized by the normalized grammar, that performs at
each non-terminal exactly the operations the template emits for it.
Machine integers (`size_t`, 64-bit) are `Nat` with explicit `% 2 ^ 64`
where C arithmetic can wrap.  The output buffer is a byte map `Nat → Nat`
with an explicit cursor, matching the moving `output` pointer; `memcpy`
into it is `writeBytes`.  `free`/`malloc` effects are modelled by
recording the pointer handed to `free`.

Ghost fields (`wr`, `ok`, `depthHit`, `ub`) record, without influencing
behaviour, which byte positions were written, whether some
output-length check failed, whether some call saw `*step >= capacity`,
and whether an operation with undefined behaviour in C was reached
(out-of-bounds `TRIANGULAR_LOOKUP_TABLE` read, the unreachable `switch`
default, or exhaustion of the recursion bound of the embedding, which is
unreachable for the fuel used by the ABI entry points).
-/

/-! ## PRNG — src/templates/head.c lines 27-54 -/

/-- `CHAMELEON_SEED` default from `src/templates/head.c` line 28. -/
def CHAMELEON_SEED : Nat := 1739639165216539016

/-- Initial value of `rand_state` (`src/templates/head.c` line 46):
`static THREAD_LOCAL size_t rand_state = CHAMELEON_SEED;`. -/
def rand_state_init : Nat := CHAMELEON_SEED

/-- `internal_random` from `src/templates/head.c` lines 48-54.  `size_t` is
64 bits; each C assignment stores a 64-bit value, so the shifted operand
wraps modulo `2 ^ 64` before the xor.  The function returns the value it
stores back into `rand_state`, so a single returned `Nat` is both the
drawn value and the new state. -/
def internal_random (x : Nat) : Nat :=
  let a := x ^^^ ((x <<< 13) % 2 ^ 64)
  let b := a ^^^ (a >>> 7)
  b ^^^ ((b <<< 17) % 2 ^ 64)

/-- The xorshift64 step as the spec describes it: `x ^= x<<13; x ^= x>>7;
x ^= x<<17` with wraparound word arithmetic after every assignment.
Written from the claim's words, to be compared with `internal_random`. -/
def xorshift64_step (x : Nat) : Nat :=
  let s1 := (x ^^^ (x <<< 13)) % 2 ^ 64
  let s2 := (s1 ^^^ (s1 >>> 7)) % 2 ^ 64
  (s2 ^^^ (s2 <<< 17)) % 2 ^ 64

/-! ## Triangular lookup — src/templates/head.c lines 31, 55-63 -/

/-- `TRIANGULAR_LOOKUP_TABLE` for `max_num_of_rules = m`
(`src/templates/head.c` lines 56-62): for each `i` in `1..=m` the loop
emits `i` copies of the entry `i - 1`, i.e. entry `i` appears `i + 1`
times for `i` in `0..m`. -/
def TRIANGULAR_LOOKUP_TABLE (m : Nat) : List Nat :=
  (List.range m).flatMap fun i => List.replicate (i + 1) i

/-- The `TRIANGULAR_RANDOM(n)` macro (`src/templates/head.c` line 31):
`TRIANGULAR_LOOKUP_TABLE[internal_random() % ((n * (n + 1)) >> 1)]`, with
the table emitted for `max_num_of_rules = m` and `rnd` the PRNG output.
An index beyond the table is an out-of-bounds read in C; it is modelled
by `getD _ 0` and flagged separately via `triangularInBounds`. -/
def TRIANGULAR_RANDOM (m n rnd : Nat) : Nat :=
  (TRIANGULAR_LOOKUP_TABLE m).getD (rnd % ((n * (n + 1)) >>> 1)) 0

/-- Whether the table access of `TRIANGULAR_RANDOM m n rnd` stays inside
the table. -/
def triangularInBounds (m n rnd : Nat) : Bool :=
  decide (rnd % ((n * (n + 1)) >>> 1) < (TRIANGULAR_LOOKUP_TABLE m).length)

/-- The dispatching template invokes the macro as
`TRIANGULAR_RANDOM({{ k*(k+1)/2 }})` (`src/templates/full/mutations.c`
line 97), i.e. the argument is already the triangular number of the rule
count `k`. -/
def dispatchTriangularDraw (m k rnd : Nat) : Nat :=
  TRIANGULAR_RANDOM m (k * (k + 1) / 2) rnd

/-- The rule index the spec's words describe for a triangular draw:
reduce the PRNG output modulo `k(k+1)/2` and pick rule `i` with weight
`k - i` — rule `0` owns the first `k` residues, rule `1` the next
`k - 1`, and so on.  Written from the claim's words, to be compared with
`dispatchTriangularDraw`. -/
def specWeightedIndex : Nat → Nat → Nat
  | 0, _ => 0
  | k + 1, t => if t < k + 1 then 0 else 1 + specWeightedIndex k (t - (k + 1))

/-- The claimed triangular draw: `random % (k(k+1)/2)` mapped through the
`(k, k-1, …, 1)` weight partition. -/
def specTriangularDraw (k rnd : Nat) : Nat :=
  specWeightedIndex k (rnd % (k * (k + 1) / 2))

/-! ## Grammar data model

The normalized grammar as the emitter sees it: a list of rule sets (one
per non-terminal, indexed by the dense id), each rule an ordered list of
symbols.  Terminal byte blobs and number sets are inlined at their use
sites (the emitted code references them by id purely as constants). -/

/-- A number set: a non-empty ordered list of inclusive ranges plus a
width class (`sizeof` of the emitted C integer type). -/
structure NumbersetDef where
  ranges : List (Nat × Nat)
  width : Nat

/-- One grammar symbol, tagged as in `crate::translator::GSymbol`. -/
inductive GSymbol where
  | bytes (content : List Nat)
  | num (ns : NumbersetDef)
  | nt (id : Nat)

/-- The rule set of one non-terminal: its ordered production rules and its
triangular-eligibility flag (`set.is_triangular()` is computed by the
grammar compiler, which is outside `src/`; the flag is carried as data). -/
structure RuleSet where
  rules : List (List GSymbol)
  triangular : Bool

/-- A normalized grammar: rule sets indexed by non-terminal id, the entry
non-terminal, and `max_num_of_rules` (which sizes the triangular table). -/
structure Grammar where
  sets : List RuleSet
  entry : Nat
  maxRules : Nat

/-- `set.has_no_symbols()`: no rule of the set contains any symbol. -/
def hasNoSymbols (rules : List (List GSymbol)) : Bool :=
  rules.all List.isEmpty

/-! ## Runtime state -/

/-- Mutable state threaded through a run of the emitted mutation
functions: the walk's step array and step counter (`steps`, `*step`),
`rand_state`, and the output memory, plus ghost observation fields. -/
structure RunState where
  steps : Nat → Nat
  step : Nat
  prng : Nat
  buf : Nat → Nat
  wr : Nat → Bool
  ok : Bool
  depthHit : Bool
  ub : Bool

/-- Wrapping `size_t` subtraction: `output_length -= v` in C wraps modulo
`2 ^ 64` when `v` exceeds `output_length` (which can happen while
replaying a prefix, where no size checks run). -/
def wsub (x v : Nat) : Nat :=
  (x + 2 ^ 64 - v % 2 ^ 64) % 2 ^ 64

/-- `__builtin_memcpy(output, bs, bs.length)` at absolute position
`cursor`, recording the written positions in the ghost `wr`. -/
def writeBytes (st : RunState) (cursor : Nat) (bs : List Nat) : RunState :=
  { st with
    buf := fun i => if cursor ≤ i ∧ i < cursor + bs.length then bs.getD (i - cursor) 0 else st.buf i
    wr := fun i => st.wr i || decide (cursor ≤ i ∧ i < cursor + bs.length) }

/-- Little-endian byte image of a value, `w` bytes: `memcpy` of a
`uint64_t` into the output on a little-endian target copies the low
bytes first (`src/templates/numbersets.c` lines 6 and 24). -/
def leBytes : Nat → Nat → List Nat
  | 0, _ => []
  | w + 1, v => v % 256 :: leBytes w (v / 256)

/-- `_numberset_<id>` from `src/templates/numbersets.c`: with a single
range, one PRNG draw produces `start + rnd % (end - start + 1)`; with
several ranges, one draw selects the range via `LINEAR_RANDOM(len)` and a
second draw produces the value.  Returns the value and the state holding
the advanced `rand_state` (the byte write is done by the caller). -/
def numbersetValue (ns : NumbersetDef) (st : RunState) : Nat × RunState :=
  match ns.ranges with
  | [] => (0, { st with ub := true })
  | [r] =>
      let x := internal_random st.prng
      (r.1 + x % (r.2 - r.1 + 1), { st with prng := x })
  | rs =>
      let x1 := internal_random st.prng
      let r := rs.getD (x1 % rs.length) (0, 0)
      let x2 := internal_random x1
      (r.1 + x2 % (r.2 - r.1 + 1), { st with prng := x2 })

/-! ## The per-non-terminal mutation functions

`mutateNonterm g length capacity fuel ntId st cursor output_length`
interprets `_mutate_nonterm_<ntId>(steps, length, capacity, step, output,
output_length)` from `src/templates/full/mutations.c`, returning the new
state and the function's `size_t` return value.  `cursor` is the absolute
position of the `output` pointer.

The `fuel` argument bounds the recursion depth for Lean's benefit only:
every recursive call in the C code happens after `*step` was incremented
past a value `< capacity`, so a chain of nested active calls is never
deeper than `capacity + 1`, and the ABI entry points pass
`fuel = capacity + 1`, making the fuel-exhausted branch (flagged `ub`)
unreachable.

Template-to-embedding notes, oldest source line numbers in
`src/templates/full/mutations.c`:
* lines 4-16 (single rule, `has_no_symbols`): consume a step slot if one
  is free, return 0;
* lines 17-75 (single rule with symbols): capacity guard, step
  increment, `mutate = (s >= length)`, then the rule's symbols (the C
  code declares `mutate` only when the rule has terminals; computing it
  always is behaviourally identical);
* lines 77-154 (dispatching): capacity guard, step increment,
  `mutate = (s >= length)`; when mutating, draw the rule index
  (triangular or linear) and store it at `steps[s]`, otherwise read
  `steps[s]`; then the chosen rule's symbols.  A stored or drawn index
  outside `0..rules-1` would run into `__builtin_unreachable()`
  (modelled: `ub`, return 0).
* Within a rule, the template omits the final `output_length -=` for the
  last symbol; the variable is dead at that point, so decrementing
  uniformly (as `runSymbolsWith` does) is behaviourally identical.
-/

/-- Sequential emission of one rule's symbols, shared by both template
forms.  `recur` interprets a referenced non-terminal; `original` is the
`original_output` pointer position.  A terminal's bytes are written (and
a number set drawn) only under `mutate`; the cursor advance and the
`output_length` decrement are unconditional.  A failed size check
returns the current `output_length` (ghost-flagged `ok := false`). -/
def runSymbolsWith (recur : Nat → RunState → Nat → Nat → RunState × Nat) (mutate : Bool) :
    List GSymbol → RunState → Nat → Nat → Nat → RunState × Nat
  | [], st, cursor, _, original => (st, cursor - original)
  | .bytes content :: rest, st, cursor, output_length, original =>
      if mutate then
        if content.length > output_length then ({ st with ok := false }, output_length)
        else
          runSymbolsWith recur mutate rest (writeBytes st cursor content)
            (cursor + content.length) (wsub output_length content.length) original
      else
        runSymbolsWith recur mutate rest st (cursor + content.length)
          (wsub output_length content.length) original
  | .num ns :: rest, st, cursor, output_length, original =>
      if mutate then
        if ns.width > output_length then ({ st with ok := false }, output_length)
        else
          let v := numbersetValue ns st
          runSymbolsWith recur mutate rest (writeBytes v.2 cursor (leBytes ns.width v.1))
            (cursor + ns.width) (wsub output_length ns.width) original
      else
        runSymbolsWith recur mutate rest st (cursor + ns.width)
          (wsub output_length ns.width) original
  | .nt id :: rest, st, cursor, output_length, original =>
      let c := recur id st cursor output_length
      runSymbolsWith recur mutate rest c.1 (cursor + c.2) (wsub output_length c.2) original

/-- The dispatching rule-index selection under `mutate`
(`src/templates/full/mutations.c` lines 95-101): triangular sets use
`TRIANGULAR_RANDOM({{ k(k+1)/2 }})`, others `internal_random() % k`.
Returns the rule index and whether the table access was in bounds. -/
def drawRule (g : Grammar) (tri : Bool) (k x : Nat) : Nat × Bool :=
  if tri then
    (dispatchTriangularDraw g.maxRules k x, triangularInBounds g.maxRules (k * (k + 1) / 2) x)
  else
    (x % k, true)

/-- The rule-index selection of the dispatching form
(`src/templates/full/mutations.c` lines 93-104): with `mutate` (that is,
`s ≥ length`) draw a fresh index and store it at `steps[s]`, advancing
`rand_state`; otherwise read `steps[s]`.  Returns the index and the state
(ghost `ub` accumulates an out-of-bounds table access). -/
def dispatchSelect (g : Grammar) (length : Nat) (tri : Bool) (k s : Nat) (st : RunState) :
    Nat × RunState :=
  if s ≥ length then
    let x := internal_random st.prng
    let sel := drawRule g tri k x
    (sel.1, { st with prng := x
                      steps := fun i => if i = s then sel.1 else st.steps i
                      ub := st.ub || !sel.2 })
  else (st.steps s, st)

/-- Interpreter for `_mutate_nonterm_<ntId>`; see the section comment. -/
def mutateNonterm (g : Grammar) (length capacity : Nat) :
    Nat → Nat → RunState → Nat → Nat → RunState × Nat
  | 0, _, st, _, _ => ({ st with ub := true }, 0)
  | fuel + 1, ntId, st, cursor, output_length =>
      let rs := (g.sets.get? ntId).getD { rules := [], triangular := false }
      let k := rs.rules.length
      if k ≤ 1 then
        if hasNoSymbols rs.rules then
          if st.step < capacity then ({ st with step := st.step + 1 }, 0) else (st, 0)
        else
          let s := st.step
          if s ≥ capacity then ({ st with depthHit := true }, 0)
          else
            runSymbolsWith (mutateNonterm g length capacity fuel) (decide (s ≥ length))
              ((rs.rules.get? 0).getD []) { st with step := s + 1 } cursor output_length cursor
      else
        let s := st.step
        if s ≥ capacity then ({ st with depthHit := true }, 0)
        else
          let sel := dispatchSelect g length rs.triangular k s { st with step := s + 1 }
          if sel.1 < k then
            runSymbolsWith (mutateNonterm g length capacity fuel) (decide (s ≥ length))
              ((rs.rules.get? sel.1).getD []) sel.2 cursor output_length cursor
          else ({ sel.2 with ub := true }, 0)

/-! ## Public ABI — src/template.c -/

/-- The internal walk struct (`src/template.c` lines 10-14): step
storage, current length, capacity.  The step storage is a byte-for-byte
map rather than a pointer; `chameleon_destroy`'s pointer bookkeeping has
its own small model below. -/
structure Walk where
  steps : Nat → Nat
  length : Nat
  capacity : Nat

/-- `chameleon_init` (`src/template.c` lines 19-23): allocate `capacity`
step slots (whose initial contents `mem` are arbitrary, `malloc` does not
clear), set `length = 0`, record the capacity. -/
def chameleon_init (mem : Nat → Nat) (capacity : Nat) : Walk :=
  { steps := mem, length := 0, capacity := capacity }

/-- Fresh run state for an ABI call: `*step` is `&walk->length` after the
caller zeroed it, `rand_state` is `prng`, the output buffer holds `buf`. -/
def initState (w : Walk) (prng : Nat) (buf : Nat → Nat) : RunState :=
  { steps := w.steps, step := 0, prng := prng, buf := buf
    wr := fun _ => false, ok := true, depthHit := false, ub := false }

/-- Invoke the entry non-terminal with replay prefix `len`: the shared
tail of `chameleon_mutate` and `chameleon_generate` (`src/template.c`
lines 127-128 and 134-135): `walk->length = 0;` then
`_mutate_nonterm_<entry>(walk->steps, len, walk->capacity, &walk->length,
output, output_length)`. -/
def replayThenFresh (g : Grammar) (w : Walk) (len prng : Nat)
    (buf : Nat → Nat) (output_length : Nat) : RunState × Nat :=
  mutateNonterm g len w.capacity (w.capacity + 1) g.entry (initState w prng buf) 0 output_length

/-- The truncation point `chameleon_mutate` computes (`src/template.c`
lines 123-126): `length = 0; if (walk->length > 0) length = random() %
walk->length;` with `rnd` the value `random()` returned. -/
def mutateTruncPoint (len rnd : Nat) : Nat :=
  if 0 < len then rnd % len else 0

/-- `chameleon_mutate` (`src/template.c` lines 122-129).  `rtrunc` is the
`random()` draw used for the truncation point. -/
def chameleon_mutate (g : Grammar) (w : Walk) (prng rtrunc : Nat)
    (buf : Nat → Nat) (output_length : Nat) : RunState × Nat :=
  replayThenFresh g w (mutateTruncPoint w.length rtrunc) prng buf output_length

/-- `chameleon_generate` (`src/template.c` lines 133-136): reset the
length and run the entry non-terminal with replay prefix 0. -/
def chameleon_generate (g : Grammar) (w : Walk) (prng : Nat)
    (buf : Nat → Nat) (output_length : Nat) : RunState × Nat :=
  replayThenFresh g w 0 prng buf output_length

/-- The walk as it stands after an ABI call: `&walk->length` served as the
step counter, so the new length is the final step count. -/
def walkOf (st : RunState) (capacity : Nat) : Walk :=
  { steps := st.steps, length := st.step, capacity := capacity }

/-! ## chameleon_destroy — src/template.c lines 27-30

`free(walk->steps); memset(walk, 0, sizeof(ChameleonWalk));`.  For the
destroy claim the walk is modelled at the byte level of the 32-byte
opaque struct: a pointer word and two size words; `destroy` returns the
zeroed struct together with the pointer value passed to `free` (passing
the null pointer 0 to `free` is defined in C as a no-op). -/

structure CWalkRepr where
  steps_ptr : Nat
  length : Nat
  capacity : Nat

/-- The all-zero struct left behind by `memset(walk, 0, sizeof)`. -/
def zeroWalkRepr : CWalkRepr :=
  { steps_ptr := 0, length := 0, capacity := 0 }

/-- `chameleon_destroy`: zero the struct, hand `walk->steps` to `free`. -/
def chameleon_destroy (w : CWalkRepr) : CWalkRepr × Nat :=
  (zeroWalkRepr, w.steps_ptr)

/-! ## Concrete grammar instances used by counterexamples and witnesses -/

/-- The scenario grammar `S → 'a' S | ε` of the spec, normalized to the
rules `S → 'a' S, S → ε` in this order; `'a'` is byte 97.  Whether `S`
counts as triangular is decided by the grammar compiler (outside
`src/`); the spec's criterion — at least one self-recursive rule tail and
at least two rules — makes `S` triangular, but the flag is kept as a
parameter so that statements cover either compilation. -/
def gS (tf : Bool) : Grammar :=
  { sets := [{ rules := [[.bytes [97], .nt 0], []], triangular := tf }]
    entry := 0, maxRules := 2 }

/-- A grammar whose entry non-terminal has the single rule emitting the
two-byte blob `"ab"`. -/
def gExact : Grammar :=
  { sets := [{ rules := [[.bytes [97, 98]]], triangular := false }]
    entry := 0, maxRules := 1 }

/-- `S → 'a' T`, `T → 'b'`: two single-rule non-terminals, so a walk of
capacity 1 exhausts the step budget at `T`. -/
def gDeep : Grammar :=
  { sets := [{ rules := [[.bytes [97], .nt 1]], triangular := false },
             { rules := [[.bytes [98]]], triangular := false }]
    entry := 0, maxRules := 1 }

/-- A dispatching non-terminal with the two rules `'A'` and `'B'` (no
self recursion, hence uniform dispatch). -/
def gT : Grammar :=
  { sets := [{ rules := [[.bytes [65]], [.bytes [66]]], triangular := false }]
    entry := 0, maxRules := 2 }

/-- An all-zero output buffer / step memory. -/
def zbuf : Nat → Nat := fun _ => 0

/-- A walk of capacity 8 fresh from `chameleon_init`. -/
def w8 : Walk := chameleon_init zbuf 8

/-! ## Basic facts about the PRNG embedding -/

theorem xor_mod_two_pow_left {x y n : Nat} (hx : x < 2 ^ n) :
    (x ^^^ y) % 2 ^ n = x ^^^ y % 2 ^ n := by
  apply Nat.eq_of_testBit_eq
  intro i
  rcases lt_or_le i n with hi | hi
  · simp [Nat.testBit_mod_two_pow, Nat.testBit_xor, hi]
  · have hxi : x.testBit i = false :=
      Nat.testBit_eq_false_of_lt (lt_of_lt_of_le hx (Nat.pow_le_pow_right (by omega) hi))
    simp [Nat.testBit_mod_two_pow, Nat.testBit_xor, Nat.not_lt.mpr hi, hxi]

theorem internal_random_lt {x : Nat} (hx : x < 2 ^ 64) : internal_random x < 2 ^ 64 := by
  unfold internal_random
  have h1 : x ^^^ (x <<< 13) % 2 ^ 64 < 2 ^ 64 :=
    Nat.xor_lt_two_pow hx (Nat.mod_lt _ (by norm_num))
  have h2 : x ^^^ (x <<< 13) % 2 ^ 64 ^^^ (x ^^^ (x <<< 13) % 2 ^ 64) >>> 7 < 2 ^ 64 := by
    refine Nat.xor_lt_two_pow h1 (lt_of_le_of_lt ?_ h1)
    rw [Nat.shiftRight_eq_div_pow]
    exact Nat.div_le_self _ _
  exact Nat.xor_lt_two_pow h2 (Nat.mod_lt _ (by norm_num))

/-- C8: `internal_random` implements the xorshift64 step on one 64-bit
word — it computes `x ^= x<<13; x ^= x>>7; x ^= x<<17` with wraparound
word arithmetic, stores the result back as the new state and returns it
(in the embedding the returned value is the new state), and the state is
initialized to the compile-time seed constant. -/
theorem C8_internal_random_is_xorshift64 (x : Nat) (hx : x < 2 ^ 64) :
    internal_random x = xorshift64_step x ∧ internal_random x < 2 ^ 64 ∧
    rand_state_init = 1739639165216539016 := by
  refine ⟨?_, internal_random_lt hx, rfl⟩
  have ha : x ^^^ (x <<< 13) % 2 ^ 64 = (x ^^^ x <<< 13) % 2 ^ 64 :=
    (xor_mod_two_pow_left hx).symm
  have ha' : x ^^^ (x <<< 13) % 2 ^ 64 < 2 ^ 64 :=
    Nat.xor_lt_two_pow hx (Nat.mod_lt _ (by norm_num))
  have hb' : x ^^^ (x <<< 13) % 2 ^ 64 ^^^ (x ^^^ (x <<< 13) % 2 ^ 64) >>> 7 < 2 ^ 64 := by
    refine Nat.xor_lt_two_pow ha' (lt_of_le_of_lt ?_ ha')
    rw [Nat.shiftRight_eq_div_pow]
    exact Nat.div_le_self _ _
  simp only [internal_random, xorshift64_step]
  rw [← ha, Nat.mod_eq_of_lt hb']
  exact (xor_mod_two_pow_left hb').symm

/-- Closed witness for `C8_internal_random_is_xorshift64` at `x = 3`. -/
theorem C8_internal_random_is_xorshift64_witness :
    internal_random 3 = xorshift64_step 3 ∧ internal_random 3 < 2 ^ 64 ∧
    rand_state_init = 1739639165216539016 :=
  C8_internal_random_is_xorshift64 3 (by norm_num)

/-! ## The triangular lookup table -/

theorem TRIANGULAR_LOOKUP_TABLE_succ (m : Nat) :
    TRIANGULAR_LOOKUP_TABLE (m + 1) =
      TRIANGULAR_LOOKUP_TABLE m ++ List.replicate (m + 1) m := by
  simp [TRIANGULAR_LOOKUP_TABLE, List.range_succ]

theorem mem_TRIANGULAR_LOOKUP_TABLE {m x : Nat}
    (hx : x ∈ TRIANGULAR_LOOKUP_TABLE m) : x < m := by
  rcases List.mem_flatMap.mp hx with ⟨i, hi, hxi⟩
  rcases List.eq_of_mem_replicate hxi with rfl
  exact List.mem_range.mp hi

theorem count_TRIANGULAR_LOOKUP_TABLE {k i : Nat} (hik : i < k) :
    (TRIANGULAR_LOOKUP_TABLE k).count i = i + 1 := by
  induction k with
  | zero => omega
  | succ m ih =>
      rw [TRIANGULAR_LOOKUP_TABLE_succ, List.count_append, List.count_replicate]
      rcases Nat.lt_or_ge i m with him | him
      · have hne : m ≠ i := (Nat.ne_of_lt him).symm
        simp [ih him, hne]
      · have : i = m := by omega
        subst this
        have h0 : (TRIANGULAR_LOOKUP_TABLE i).count i = 0 :=
          List.count_eq_zero.mpr fun hmem => absurd (mem_TRIANGULAR_LOOKUP_TABLE hmem) (lt_irrefl i)
        simp [h0]

/-- C1 counterexample.  For `max_num_of_rules = 3`, a non-terminal with
`k = 2` rules and the PRNG output `3`, the emitted draw
`TRIANGULAR_RANDOM({{ 2·3/2 }})` yields rule index `2`, outside `[0, 2)`
and different from the claimed weighted draw; moreover in the table for
`k = 2` the entry `0` appears once, not with weight `k - 0 = 2`. -/
theorem C1_counterexample :
    ¬ (dispatchTriangularDraw 3 2 3 < 2) ∧
    dispatchTriangularDraw 3 2 3 ≠ specTriangularDraw 2 3 ∧
    (TRIANGULAR_LOOKUP_TABLE 2).count 0 = 1 := by
  refine ⟨by decide, by decide, by decide⟩

/-- C1 amended: the call site hands the macro the triangular number
`T = k(k+1)/2`, and the macro reduces the PRNG output modulo
`T(T+1)/2` — the triangular formula applied twice — before the table
lookup; and the table emitted for rule count `k` holds entry `i` exactly
`i + 1` times, so among the residues the lookup is defined on, rule `i`
carries weight `i + 1` (biased toward the last rule), not `k - i`.
Residues at or beyond `k(k+1)/2` select indices outside `[0, k)` or
outside the table (see the counterexample). -/
theorem C1_amended :
    (∀ m k rnd, dispatchTriangularDraw m k rnd =
      (TRIANGULAR_LOOKUP_TABLE m).getD
        (rnd % (k * (k + 1) / 2 * (k * (k + 1) / 2 + 1) / 2)) 0) ∧
    (∀ k i, i < k → (TRIANGULAR_LOOKUP_TABLE k).count i = i + 1) := by
  constructor
  · intro m k rnd
    unfold dispatchTriangularDraw TRIANGULAR_RANDOM
    rw [Nat.shiftRight_eq_div_pow, pow_one]
  · intro k i hik
    exact count_TRIANGULAR_LOOKUP_TABLE hik

/-- Closed witness for `C1_amended` at `m = 3`, `k = 2`, `rnd = 5`,
`i = 1`. -/
theorem C1_amended_witness :
    dispatchTriangularDraw 3 2 5 =
      (TRIANGULAR_LOOKUP_TABLE 3).getD (5 % (2 * 3 / 2 * (2 * 3 / 2 + 1) / 2)) 0 ∧
    (TRIANGULAR_LOOKUP_TABLE 2).count 1 = 2 :=
  ⟨C1_amended.1 3 2 5, C1_amended.2 2 1 (by decide)⟩

/-- C3 counterexample.  On a walk of length 1 the truncation point can
never equal the length: `random() % 1 = 0` for every PRNG output, so the
full-replay point `L` is unreachable, contradicting the claimed
inclusive range `[0, L]`. -/
theorem C3_counterexample : ¬ ∃ rnd, mutateTruncPoint 1 rnd = 1 := by
  rintro ⟨rnd, h⟩
  simp [mutateTruncPoint, Nat.mod_one] at h

/-- C3 amended: for a walk of length `L > 0`, `chameleon_mutate` computes
its truncation point as `random() % L`, which ranges exactly over
`[0, L-1]` — every point strictly below `L` is reachable, but `L` itself
(replaying the whole walk) is not — truncates the walk length to it, and
invokes the entry non-terminal so that positions below the point are
replayed and positions at or above it are freshly chosen. -/
theorem C3_amended :
    (∀ L rnd, 0 < L → mutateTruncPoint L rnd < L) ∧
    (∀ L t, t < L → mutateTruncPoint L t = t) ∧
    (∀ g w prng rtrunc buf OC, chameleon_mutate g w prng rtrunc buf OC =
      replayThenFresh g w (mutateTruncPoint w.length rtrunc) prng buf OC) := by
  refine ⟨?_, ?_, fun _ _ _ _ _ _ => rfl⟩
  · intro L rnd hL
    simp only [mutateTruncPoint, if_pos hL]
    exact Nat.mod_lt _ hL
  · intro L t ht
    simp only [mutateTruncPoint, if_pos (Nat.lt_of_le_of_lt (Nat.zero_le t) ht)]
    exact Nat.mod_eq_of_lt ht

/-- Closed witness for `C3_amended` at `L = 3`, `rnd = 7`, `t = 2`. -/
theorem C3_amended_witness :
    mutateTruncPoint 3 7 < 3 ∧ mutateTruncPoint 3 2 = 2 :=
  ⟨C3_amended.1 3 7 (by decide), C3_amended.2.1 3 2 (by decide)⟩

/-- C10: `chameleon_destroy` frees the step storage and zeroes the whole
walk struct; on an already-destroyed (all-zero) walk it hands the null
pointer 0 to `free` (a defined no-op) and leaves the struct all-zero, so
destroy after destroy equals a single destroy. -/
theorem C10_destroy_idempotent (w : CWalkRepr) :
    (chameleon_destroy w).1 = zeroWalkRepr ∧
    (chameleon_destroy zeroWalkRepr).2 = 0 ∧
    chameleon_destroy (chameleon_destroy w).1 = (zeroWalkRepr, 0) ∧
    (chameleon_destroy (chameleon_destroy w).1).1 = (chameleon_destroy w).1 :=
  ⟨rfl, rfl, rfl, rfl⟩

/-! ## State invariants of the interpreter

`StInv capacity st st'` collects the frame facts every emitted mutation
function guarantees between its entry state and its exit state: the step
counter only grows and never past the capacity, the step array changes
only in the window `[st.step, st'.step)`, the ghost `ok`/`ub` flags are
only ever cleared/set, and a position whose ghost write mark is still
clear at the end was not written (so its buffer byte is unchanged). -/
def StInv (capacity : Nat) (st st' : RunState) : Prop :=
  st.step ≤ st'.step ∧
  st'.step ≤ max st.step capacity ∧
  (∀ i, i < st.step ∨ st'.step ≤ i → st'.steps i = st.steps i) ∧
  (st'.ok = true → st.ok = true) ∧
  (st'.ub = false → st.ub = false) ∧
  (∀ i, st'.wr i = false → st.wr i = false ∧ st'.buf i = st.buf i)

theorem StInv_refl (capacity : Nat) (st : RunState) : StInv capacity st st :=
  ⟨le_refl _, le_max_left _ _, fun _ _ => rfl, fun h => h, fun h => h,
   fun _ h => ⟨h, rfl⟩⟩

theorem StInv.trans {capacity : Nat} {st st₁ st₂ : RunState}
    (h₁ : StInv capacity st st₁) (h₂ : StInv capacity st₁ st₂) :
    StInv capacity st st₂ := by
  obtain ⟨a1, b1, c1, d1, e1, f1⟩ := h₁
  obtain ⟨a2, b2, c2, d2, e2, f2⟩ := h₂
  refine ⟨le_trans a1 a2, ?_, ?_, fun h => d1 (d2 h), fun h => e1 (e2 h), ?_⟩
  · refine le_trans b2 ?_
    simp only [max_le_iff]
    exact ⟨le_trans b1 (le_refl _), le_max_right _ _⟩
  · intro i hi
    rcases hi with hi | hi
    · rw [c2 i (Or.inl (lt_of_lt_of_le hi a1)), c1 i (Or.inl hi)]
    · rw [c2 i (Or.inr hi), c1 i (Or.inr (le_trans a2 hi))]
  · intro i hi
    obtain ⟨hw1, hb1⟩ := f2 i hi
    obtain ⟨hw0, hb0⟩ := f1 i hw1
    exact ⟨hw0, hb1.trans hb0⟩

theorem StInv_step_inc {capacity : Nat} {st : RunState} (h : st.step < capacity) :
    StInv capacity st { st with step := st.step + 1 } :=
  ⟨Nat.le_succ _, by simp; omega, fun _ _ => rfl, fun h => h, fun h => h,
   fun _ h => ⟨h, rfl⟩⟩

theorem StInv_depthHit (capacity : Nat) (st : RunState) :
    StInv capacity st { st with depthHit := true } :=
  ⟨le_refl _, le_max_left _ _, fun _ _ => rfl, fun h => h, fun h => h,
   fun _ h => ⟨h, rfl⟩⟩

theorem StInv_ub (capacity : Nat) (st : RunState) :
    StInv capacity st { st with ub := true } :=
  ⟨le_refl _, le_max_left _ _, fun _ _ => rfl, fun h => h, by simp,
   fun _ h => ⟨h, rfl⟩⟩

theorem StInv_ok_false (capacity : Nat) (st : RunState) :
    StInv capacity st { st with ok := false } :=
  ⟨le_refl _, le_max_left _ _, fun _ _ => rfl, by simp, fun h => h,
   fun _ h => ⟨h, rfl⟩⟩

theorem writeBytes_StInv (capacity : Nat) (st : RunState) (cursor : Nat) (bs : List Nat) :
    StInv capacity st (writeBytes st cursor bs) := by
  refine ⟨le_refl _, le_max_left _ _, fun _ _ => rfl, fun h => h, fun h => h, ?_⟩
  intro i hi
  simp only [writeBytes, Bool.or_eq_false_iff] at hi ⊢
  obtain ⟨hw, hin⟩ := hi
  refine ⟨hw, ?_⟩
  simp only [decide_eq_false_iff_not] at hin
  simp [hin]

theorem numbersetValue_StInv (capacity : Nat) (ns : NumbersetDef) (st : RunState) :
    StInv capacity st (numbersetValue ns st).2 := by
  unfold numbersetValue
  rcases ns with ⟨ranges, w⟩
  match ranges with
  | [] => exact StInv_ub _ _
  | [r] =>
      exact ⟨le_refl _, le_max_left _ _, fun _ _ => rfl, fun h => h, fun h => h,
        fun _ h => ⟨h, rfl⟩⟩
  | r₁ :: r₂ :: rest =>
      exact ⟨le_refl _, le_max_left _ _, fun _ _ => rfl, fun h => h, fun h => h,
        fun _ h => ⟨h, rfl⟩⟩

theorem runSymbolsWith_StInv {capacity : Nat}
    {f : Nat → RunState → Nat → Nat → RunState × Nat}
    (hf : ∀ id st c ol, StInv capacity st (f id st c ol).1) :
    ∀ (syms : List GSymbol) (mutate : Bool) (st : RunState) (c ol orig : Nat),
      StInv capacity st (runSymbolsWith f mutate syms st c ol orig).1 := by
  intro syms
  induction syms with
  | nil => intro mutate st c ol orig; exact StInv_refl _ _
  | cons sym rest ih =>
      intro mutate st c ol orig
      cases sym with
      | bytes content =>
          by_cases hm : mutate
          · by_cases hlen : content.length > ol
            · simp only [runSymbolsWith, if_pos hm, if_pos hlen]
              exact StInv_ok_false _ _
            · simp only [runSymbolsWith, if_pos hm, if_neg hlen]
              exact StInv.trans (writeBytes_StInv _ _ _ _) (ih _ _ _ _ _)
          · simp only [runSymbolsWith, if_neg hm]
            exact ih _ _ _ _ _
      | num ns =>
          by_cases hm : mutate
          · by_cases hlen : ns.width > ol
            · simp only [runSymbolsWith, if_pos hm, if_pos hlen]
              exact StInv_ok_false _ _
            · simp only [runSymbolsWith, if_pos hm, if_neg hlen]
              exact StInv.trans (numbersetValue_StInv _ _ _)
                (StInv.trans (writeBytes_StInv _ _ _ _) (ih _ _ _ _ _))
          · simp only [runSymbolsWith, if_neg hm]
            exact ih _ _ _ _ _
      | nt id =>
          simp only [runSymbolsWith]
          exact StInv.trans (hf _ _ _ _) (ih _ _ _ _ _)

theorem dispatchSelect_StInv {capacity : Nat} (g : Grammar) (length : Nat) (tri : Bool)
    (k : Nat) {st : RunState} (h : st.step < capacity) :
    StInv capacity st (dispatchSelect g length tri k st.step { st with step := st.step + 1 }).2 := by
  unfold dispatchSelect
  by_cases hl : st.step ≥ length
  · simp only [if_pos hl]
    refine ⟨Nat.le_succ _, by simp; omega, ?_, fun h => h, ?_, fun _ h => ⟨h, rfl⟩⟩
    · intro i hi
      have hi' : i < st.step ∨ st.step + 1 ≤ i := hi
      have : i ≠ st.step := by omega
      simp [this]
    · simp only [Bool.or_eq_false_iff]
      exact fun h => h.1
  · simp only [if_neg hl]
    exact StInv_step_inc h

theorem mutateNonterm_StInv (g : Grammar) (length capacity : Nat) :
    ∀ (fuel ntId : Nat) (st : RunState) (c ol : Nat),
      StInv capacity st (mutateNonterm g length capacity fuel ntId st c ol).1 := by
  intro fuel
  induction fuel with
  | zero => intro ntId st c ol; exact StInv_ub _ _
  | succ fuel ih =>
      intro ntId st c ol
      simp only [mutateNonterm]
      by_cases hk : ((g.sets.get? ntId).getD { rules := [], triangular := false }).rules.length ≤ 1
      · simp only [if_pos hk]
        by_cases hempty :
            hasNoSymbols ((g.sets.get? ntId).getD { rules := [], triangular := false }).rules
        · simp only [if_pos hempty]
          by_cases hs : st.step < capacity
          · simp only [if_pos hs]
            exact StInv_step_inc hs
          · simp only [if_neg hs]
            exact StInv_refl _ _
        · simp only [if_neg hempty]
          by_cases hs : st.step ≥ capacity
          · simp only [if_pos hs]
            exact StInv_depthHit _ _
          · simp only [if_neg hs]
            exact StInv.trans (StInv_step_inc (by omega)) (runSymbolsWith_StInv ih _ _ _ _ _ _)
      · simp only [if_neg hk]
        by_cases hs : st.step ≥ capacity
        · simp only [if_pos hs]
          exact StInv_depthHit _ _
        · simp only [if_neg hs]
          by_cases hrule :
              (dispatchSelect g length
                ((g.sets.get? ntId).getD { rules := [], triangular := false }).triangular
                ((g.sets.get? ntId).getD { rules := [], triangular := false }).rules.length
                st.step { st with step := st.step + 1 }).1 <
              ((g.sets.get? ntId).getD { rules := [], triangular := false }).rules.length
          · simp only [if_pos hrule]
            exact StInv.trans (dispatchSelect_StInv g length _ _ (by omega))
              (runSymbolsWith_StInv ih _ _ _ _ _ _)
          · simp only [if_neg hrule]
            exact StInv.trans (dispatchSelect_StInv g length _ _ (by omega)) (StInv_ub _ _)

/-- C6: the walk length never exceeds its capacity.  `chameleon_init`
sets the length to 0; `chameleon_generate` and `chameleon_mutate` zero
the length and then use it as the step counter, which the emitted
functions increment only while it is strictly below the capacity
recorded at init, so the resulting walk again satisfies
`length ≤ capacity`. -/
theorem C6_length_le_capacity :
    (∀ mem capacity, (chameleon_init mem capacity).length = 0 ∧
      (chameleon_init mem capacity).length ≤ capacity) ∧
    (∀ g w prng buf OC,
      (walkOf (chameleon_generate g w prng buf OC).1 w.capacity).length ≤ w.capacity) ∧
    (∀ g w prng rtrunc buf OC,
      (walkOf (chameleon_mutate g w prng rtrunc buf OC).1 w.capacity).length ≤ w.capacity) := by
  refine ⟨fun mem capacity => ⟨rfl, Nat.zero_le _⟩, ?_, ?_⟩
  · intro g w prng buf OC
    have h := (mutateNonterm_StInv g 0 w.capacity (w.capacity + 1) g.entry
      (initState w prng buf) 0 OC).2.1
    simpa [walkOf, chameleon_generate, replayThenFresh, initState] using h
  · intro g w prng rtrunc buf OC
    have h := (mutateNonterm_StInv g (mutateTruncPoint w.length rtrunc) w.capacity
      (w.capacity + 1) g.entry (initState w prng buf) 0 OC).2.1
    simpa [walkOf, chameleon_mutate, replayThenFresh, initState] using h

/-! ## Safety of the generate path

With replay length 0 every position is freshly chosen (`mutate` is true
everywhere), so every terminal or number-set write is guarded by its
size check and every advance of the output pointer stays within the
budget handed to the call.  `BufFrame st st' lo hi` says the run changed
the buffer (and its ghost write marks) only inside `[lo, hi)`;
`WrRange st' lo hi` says every position of `[lo, hi)` carries a write
mark afterwards. -/

def BufFrame (st st' : RunState) (lo hi : Nat) : Prop :=
  ∀ i, i < lo ∨ hi ≤ i → st'.buf i = st.buf i ∧ st'.wr i = st.wr i

def WrRange (st' : RunState) (lo hi : Nat) : Prop :=
  ∀ j, lo ≤ j → j < hi → st'.wr j = true

theorem BufFrame_refl (st : RunState) (lo hi : Nat) : BufFrame st st lo hi :=
  fun _ _ => ⟨rfl, rfl⟩

theorem BufFrame.union {st st₁ st₂ : RunState} {lo hi lo₁ hi₁ lo₂ hi₂ : Nat}
    (h₁ : BufFrame st st₁ lo₁ hi₁) (h₂ : BufFrame st₁ st₂ lo₂ hi₂)
    (ha : lo ≤ lo₁) (hb : hi₁ ≤ hi) (hc : lo ≤ lo₂) (hd : hi₂ ≤ hi) :
    BufFrame st st₂ lo hi := by
  intro i hi0
  have h2 := h₂ i (by omega)
  have h1 := h₁ i (by omega)
  exact ⟨h2.1.trans h1.1, h2.2.trans h1.2⟩

theorem bufFrame_of_eq {st st' : RunState} (hb : st'.buf = st.buf) (hw : st'.wr = st.wr)
    (lo hi : Nat) : BufFrame st st' lo hi :=
  fun _ _ => ⟨by rw [hb], by rw [hw]⟩

theorem StInv.wr_mono {capacity : Nat} {st st' : RunState} (h : StInv capacity st st')
    {i : Nat} (hw : st.wr i = true) : st'.wr i = true := by
  cases hwi : st'.wr i
  · exact absurd (h.2.2.2.2.2 i hwi).1 (by simp [hw])
  · rfl

theorem wsub_eq_sub {x y : Nat} (h : y ≤ x) (hx : x < 2 ^ 64) : wsub x y = x - y := by
  unfold wsub
  rw [Nat.mod_eq_of_lt (by omega : y < 2 ^ 64)]
  have : x + 2 ^ 64 - y = (x - y) + 2 ^ 64 := by omega
  rw [this, Nat.add_mod_right]
  exact Nat.mod_eq_of_lt (by omega)

theorem leBytes_length : ∀ w v, (leBytes w v).length = w := by
  intro w
  induction w with
  | zero => intro v; rfl
  | succ n ih => intro v; simp [leBytes, ih]

theorem writeBytes_wr_true {st : RunState} {c : Nat} {bs : List Nat} {j : Nat}
    (h1 : c ≤ j) (h2 : j < c + bs.length) : (writeBytes st c bs).wr j = true := by
  simp [writeBytes, h1, h2]

theorem writeBytes_frame (st : RunState) (c : Nat) (bs : List Nat) :
    BufFrame st (writeBytes st c bs) c (c + bs.length) := by
  intro i hi
  have : ¬ (c ≤ i ∧ i < c + bs.length) := by omega
  simp [writeBytes, this]

theorem numbersetValue_buf_wr (ns : NumbersetDef) (st : RunState) :
    (numbersetValue ns st).2.buf = st.buf ∧ (numbersetValue ns st).2.wr = st.wr ∧
    (numbersetValue ns st).2.ok = st.ok := by
  unfold numbersetValue
  rcases ns with ⟨ranges, w⟩
  match ranges with
  | [] => exact ⟨rfl, rfl, rfl⟩
  | [r] => exact ⟨rfl, rfl, rfl⟩
  | r₁ :: r₂ :: rest => exact ⟨rfl, rfl, rfl⟩

/-- Generate-path safety of one rule's symbol sequence (all positions
mutating): the return value never drives the total advance past the
budget, the buffer changes only inside the window, and — when no size
check failed — every position up to the returned count carries a write
mark. -/
theorem runSymbolsWith_genSafe {capacity : Nat}
    {f : Nat → RunState → Nat → Nat → RunState × Nat}
    (hfInv : ∀ id st c ol, StInv capacity st (f id st c ol).1)
    (hf : ∀ id st c ol, ol < 2 ^ 64 →
      (f id st c ol).2 ≤ ol ∧
      BufFrame st (f id st c ol).1 c (c + ol) ∧
      ((f id st c ol).1.ok = true → WrRange (f id st c ol).1 c (c + (f id st c ol).2))) :
    ∀ (syms : List GSymbol) (st : RunState) (c ol orig : Nat), orig ≤ c → ol < 2 ^ 64 →
      (runSymbolsWith f true syms st c ol orig).2 + orig ≤ c + ol ∧
      BufFrame st (runSymbolsWith f true syms st c ol orig).1 c (c + ol) ∧
      ((runSymbolsWith f true syms st c ol orig).1.ok = true →
        WrRange (runSymbolsWith f true syms st c ol orig).1 c
          (orig + (runSymbolsWith f true syms st c ol orig).2)) := by
  intro syms
  induction syms with
  | nil =>
      intro st c ol orig horig hol
      refine ⟨by simp [runSymbolsWith]; omega, BufFrame_refl _ _ _, ?_⟩
      intro _ j hj1 hj2
      simp only [runSymbolsWith] at hj2
      omega
  | cons sym rest ih =>
      intro st c ol orig horig hol
      cases sym with
      | bytes content =>
          by_cases hlen : content.length > ol
          · simp only [runSymbolsWith, if_true, if_pos hlen]
            refine ⟨by omega, BufFrame_refl _ _ _, ?_⟩
            intro hok
            simp at hok
          · simp only [runSymbolsWith, if_true, if_neg hlen]
            have hz : content.length ≤ ol := by omega
            rw [wsub_eq_sub hz hol]
            have hih := ih (writeBytes st c content) (c + content.length) (ol - content.length)
              orig (by omega) (by omega)
            obtain ⟨ha, hb, hc⟩ := hih
            refine ⟨by omega, ?_, ?_⟩
            · exact BufFrame.union (writeBytes_frame st c content) hb (le_refl _)
                (by omega) (by omega) (by omega)
            · intro hok j hj1 hj2
              rcases Nat.lt_or_ge j (c + content.length) with hj | hj
              · refine StInv.wr_mono (runSymbolsWith_StInv hfInv rest true _ _ _ _) ?_
                exact writeBytes_wr_true hj1 hj
              · exact hc hok j hj hj2
      | num ns =>
          by_cases hlen : ns.width > ol
          · simp only [runSymbolsWith, if_true, if_pos hlen]
            refine ⟨by omega, BufFrame_refl _ _ _, ?_⟩
            intro hok
            simp at hok
          · simp only [runSymbolsWith, if_true, if_neg hlen]
            have hz : ns.width ≤ ol := by omega
            rw [wsub_eq_sub hz hol]
            obtain ⟨hbuf, hwr, _⟩ := numbersetValue_buf_wr ns st
            have hih := ih (writeBytes (numbersetValue ns st).2 c
              (leBytes ns.width (numbersetValue ns st).1)) (c + ns.width) (ol - ns.width)
              orig (by omega) (by omega)
            obtain ⟨ha, hb, hc⟩ := hih
            refine ⟨by omega, ?_, ?_⟩
            · have hwf := writeBytes_frame (numbersetValue ns st).2 c
                (leBytes ns.width (numbersetValue ns st).1)
              rw [leBytes_length] at hwf
              refine BufFrame.union (bufFrame_of_eq hbuf hwr c (c + ol)) ?_
                (le_refl _) (le_refl _) (le_refl _) (le_refl _)
              exact BufFrame.union hwf hb (le_refl _) (by omega) (by omega) (by omega)
            · intro hok j hj1 hj2
              rcases Nat.lt_or_ge j (c + ns.width) with hj | hj
              · refine StInv.wr_mono (runSymbolsWith_StInv hfInv rest true _ _ _ _) ?_
                refine writeBytes_wr_true hj1 ?_
                rw [leBytes_length]
                omega
              · exact hc hok j hj hj2
      | nt id =>
          simp only [runSymbolsWith]
          obtain ⟨hr, hfr, hwrr⟩ := hf id st c ol hol
          have hrle : (f id st c ol).2 ≤ ol := hr
          rw [wsub_eq_sub hrle hol]
          have hih := ih (f id st c ol).1 (c + (f id st c ol).2) (ol - (f id st c ol).2)
            orig (by omega) (by omega)
          obtain ⟨ha, hb, hc⟩ := hih
          refine ⟨by omega, ?_, ?_⟩
          · exact BufFrame.union hfr hb (le_refl _) (le_refl _) (by omega) (by omega)
          · intro hok j hj1 hj2
            rcases Nat.lt_or_ge j (c + (f id st c ol).2) with hj | hj
            · have hchildok : (f id st c ol).1.ok = true :=
                (runSymbolsWith_StInv hfInv rest true _ _ _ _).2.2.2.1 hok
              refine StInv.wr_mono (runSymbolsWith_StInv hfInv rest true _ _ _ _) ?_
              exact hwrr hchildok j hj1 hj
            · exact hc hok j hj hj2

theorem dispatchSelect_buf_wr_ok (g : Grammar) (len : Nat) (tri : Bool) (k s : Nat)
    (st : RunState) :
    (dispatchSelect g len tri k s st).2.buf = st.buf ∧
    (dispatchSelect g len tri k s st).2.wr = st.wr ∧
    (dispatchSelect g len tri k s st).2.ok = st.ok := by
  unfold dispatchSelect
  by_cases h : s ≥ len <;> simp [h]

/-- Generate-path safety of a whole `_mutate_nonterm_<id>` call (replay
length 0): the returned byte count never exceeds `output_length`, the
buffer is changed only inside `[cursor, cursor + output_length)`, and in
a run with no failed size check every byte position counted by the
return value was actually written. -/
theorem mutateNonterm_genSafe (g : Grammar) (capacity : Nat) :
    ∀ (fuel ntId : Nat) (st : RunState) (c ol : Nat), ol < 2 ^ 64 →
      (mutateNonterm g 0 capacity fuel ntId st c ol).2 ≤ ol ∧
      BufFrame st (mutateNonterm g 0 capacity fuel ntId st c ol).1 c (c + ol) ∧
      ((mutateNonterm g 0 capacity fuel ntId st c ol).1.ok = true →
        WrRange (mutateNonterm g 0 capacity fuel ntId st c ol).1 c
          (c + (mutateNonterm g 0 capacity fuel ntId st c ol).2)) := by
  intro fuel
  induction fuel with
  | zero =>
      intro ntId st c ol hol
      refine ⟨Nat.zero_le _, BufFrame_refl _ _ _, ?_⟩
      intro _ j hj1 hj2
      simp only [mutateNonterm] at hj2
      omega
  | succ fuel ih =>
      intro ntId st c ol hol
      have hmut : decide (st.step ≥ 0) = true := by simp
      simp only [mutateNonterm, hmut]
      by_cases hk : ((g.sets.get? ntId).getD { rules := [], triangular := false }).rules.length ≤ 1
      · simp only [if_pos hk]
        by_cases hempty :
            hasNoSymbols ((g.sets.get? ntId).getD { rules := [], triangular := false }).rules
        · simp only [if_pos hempty]
          by_cases hs : st.step < capacity
          · simp only [if_pos hs]
            exact ⟨Nat.zero_le _, BufFrame_refl _ _ _, fun _ j hj1 hj2 => by omega⟩
          · simp only [if_neg hs]
            exact ⟨Nat.zero_le _, BufFrame_refl _ _ _, fun _ j hj1 hj2 => by omega⟩
        · simp only [if_neg hempty]
          by_cases hs : st.step ≥ capacity
          · simp only [if_pos hs]
            exact ⟨Nat.zero_le _, BufFrame_refl _ _ _, fun _ j hj1 hj2 => by omega⟩
          · simp only [if_neg hs]
            have hlist := runSymbolsWith_genSafe (mutateNonterm_StInv g 0 capacity fuel)
              (fun id st' c' ol' hol' => ih id st' c' ol' hol')
              ((((g.sets.get? ntId).getD { rules := [], triangular := false }).rules.get? 0).getD [])
              { st with step := st.step + 1 } c ol c (le_refl _) hol
            obtain ⟨ha, hb, hc⟩ := hlist
            refine ⟨by omega, ?_, ?_⟩
            · refine BufFrame.union (bufFrame_of_eq rfl rfl c (c + ol)) hb
                (le_refl _) (le_refl _) (le_refl _) (le_refl _)
            · intro hok j hj1 hj2
              exact hc hok j hj1 (by omega)
      · simp only [if_neg hk]
        by_cases hs : st.step ≥ capacity
        · simp only [if_pos hs]
          exact ⟨Nat.zero_le _, BufFrame_refl _ _ _, fun _ j hj1 hj2 => by omega⟩
        · simp only [if_neg hs]
          obtain ⟨hdbuf, hdwr, hdok⟩ := dispatchSelect_buf_wr_ok g 0
            ((g.sets.get? ntId).getD { rules := [], triangular := false }).triangular
            ((g.sets.get? ntId).getD { rules := [], triangular := false }).rules.length
            st.step { st with step := st.step + 1 }
          by_cases hrule :
              (dispatchSelect g 0
                ((g.sets.get? ntId).getD { rules := [], triangular := false }).triangular
                ((g.sets.get? ntId).getD { rules := [], triangular := false }).rules.length
                st.step { st with step := st.step + 1 }).1 <
              ((g.sets.get? ntId).getD { rules := [], triangular := false }).rules.length
          · simp only [if_pos hrule]
            have hlist := runSymbolsWith_genSafe (mutateNonterm_StInv g 0 capacity fuel)
              (fun id st' c' ol' hol' => ih id st' c' ol' hol')
              ((((g.sets.get? ntId).getD { rules := [], triangular := false }).rules.get?
                (dispatchSelect g 0
                  ((g.sets.get? ntId).getD { rules := [], triangular := false }).triangular
                  ((g.sets.get? ntId).getD { rules := [], triangular := false }).rules.length
                  st.step { st with step := st.step + 1 }).1).getD [])
              (dispatchSelect g 0
                ((g.sets.get? ntId).getD { rules := [], triangular := false }).triangular
                ((g.sets.get? ntId).getD { rules := [], triangular := false }).rules.length
                st.step { st with step := st.step + 1 }).2 c ol c (le_refl _) hol
            obtain ⟨ha, hb, hc⟩ := hlist
            refine ⟨by omega, ?_, ?_⟩
            · refine BufFrame.union (bufFrame_of_eq hdbuf hdwr c (c + ol)) hb
                (le_refl _) (le_refl _) (le_refl _) (le_refl _)
            · intro hok j hj1 hj2
              exact hc hok j hj1 (by omega)
          · simp only [if_neg hrule]
            refine ⟨Nat.zero_le _, ?_, fun _ j hj1 hj2 => by omega⟩
            refine BufFrame.union (bufFrame_of_eq hdbuf hdwr c (c + ol))
              (bufFrame_of_eq rfl rfl c (c + ol)) (le_refl _) (le_refl _) (le_refl _) (le_refl _)

/-- C9: along the generate path (replay length 0, every position freshly
chosen) the returned byte count never exceeds the supplied output
length — for every call, so in particular a child non-terminal's return
value never exceeds the remaining length passed to it — and every byte
written lies within the caller's buffer: the buffer is untouched outside
`[cursor, cursor + output_length)`.  At the `chameleon_generate` level
(cursor 0): the return value is at most the output capacity, every
ghost-marked write lies below the capacity, and bytes at or beyond the
capacity are unchanged.  The `ub = false` hypothesis restricts the
statement to runs that are free of C undefined behaviour (a triangular
table read out of bounds, see C1, makes the C execution undefined). -/
theorem C9_generate_path_safety :
    (∀ g capacity fuel ntId st c ol st' r,
      ol < 2 ^ 64 →
      mutateNonterm g 0 capacity fuel ntId st c ol = (st', r) →
      st'.ub = false →
      r ≤ ol ∧ BufFrame st st' c (c + ol)) ∧
    (∀ g w prng buf OC st' r,
      OC < 2 ^ 64 →
      chameleon_generate g w prng buf OC = (st', r) →
      st'.ub = false →
      r ≤ OC ∧ (∀ i, st'.wr i = true → i < OC) ∧ (∀ i, OC ≤ i → st'.buf i = buf i)) := by
  constructor
  · intro g capacity fuel ntId st c ol st' r hol heq _
    have h := mutateNonterm_genSafe g capacity fuel ntId st c ol hol
    rw [heq] at h
    exact ⟨h.1, h.2.1⟩
  · intro g w prng buf OC st' r hol heq _
    have h := mutateNonterm_genSafe g w.capacity (w.capacity + 1) g.entry
      (initState w prng buf) 0 OC hol
    have heq' : mutateNonterm g 0 w.capacity (w.capacity + 1) g.entry
        (initState w prng buf) 0 OC = (st', r) := heq
    rw [heq'] at h
    refine ⟨h.1, ?_, ?_⟩
    · intro i hwi
      by_contra hge
      have := (h.2.1 i (Or.inr (by omega))).2
      rw [hwi] at this
      exact absurd this.symm (by simp [initState])
    · intro i hge
      exact (h.2.1 i (Or.inr (by omega))).1

/-- Closed witness for `C9_generate_path_safety` on the one-rule grammar
`gExact` with walk capacity 4 and output capacity 2. -/
theorem C9_generate_path_safety_witness :
    (chameleon_generate gExact (chameleon_init zbuf 4) 1 zbuf 2).2 ≤ 2 ∧
    (∀ i, (chameleon_generate gExact (chameleon_init zbuf 4) 1 zbuf 2).1.wr i = true → i < 2) ∧
    (∀ i, 2 ≤ i → (chameleon_generate gExact (chameleon_init zbuf 4) 1 zbuf 2).1.buf i = zbuf i) :=
  C9_generate_path_safety.2 gExact (chameleon_init zbuf 4) 1 zbuf 2
    (chameleon_generate gExact (chameleon_init zbuf 4) 1 zbuf 2).1
    (chameleon_generate gExact (chameleon_init zbuf 4) 1 zbuf 2).2
    (by norm_num) rfl (by decide)

/-- C4 counterexample.  On the grammar `gExact` (single rule writing the
two bytes `"ab"`), a generate with output capacity 2 returns exactly the
capacity although no capacity limit was hit: no output-length check
failed (`ok` still true) and the walk depth was not exhausted
(`depthHit` false, `ub` false) — the buffer was merely filled exactly.
This refutes the claimed "only if" direction of the equivalence. -/
theorem C4_counterexample :
    (chameleon_generate gExact (chameleon_init zbuf 4) 1 zbuf 2).2 = 2 ∧
    (chameleon_generate gExact (chameleon_init zbuf 4) 1 zbuf 2).1.ok = true ∧
    (chameleon_generate gExact (chameleon_init zbuf 4) 1 zbuf 2).1.depthHit = false ∧
    (chameleon_generate gExact (chameleon_init zbuf 4) 1 zbuf 2).1.ub = false := by
  refine ⟨by decide, by decide, by decide, by decide⟩

/-- C4 amended: on the generate path the return value never exceeds the
output capacity, and in a UB-free run with no failed output-length check
every byte position below the return value was actually written — so a
return equal to the capacity then means the buffer was exactly filled,
not that a limit was hit.  Conversely the capacity channels do not force
a return equal to the capacity: a failed output-length check makes the
inner function return its *current remaining* output length (capacity
only when nothing was consumed before the failure at every level), and
walk-depth exhaustion (`*step >= capacity`) merely makes the inner call
return 0 with no outer signal — witnessed by the concrete `gDeep` run,
which exhausts the walk depth (`depthHit`) yet returns 1, not the output
capacity 16. -/
theorem C4_amended :
    (∀ g w prng buf OC st' r,
      OC < 2 ^ 64 →
      chameleon_generate g w prng buf OC = (st', r) →
      st'.ub = false →
      r ≤ OC ∧ (st'.ok = true → ∀ j, j < r → st'.wr j = true)) ∧
    ((chameleon_generate gDeep (chameleon_init zbuf 1) 1 zbuf 16).1.depthHit = true ∧
     (chameleon_generate gDeep (chameleon_init zbuf 1) 1 zbuf 16).2 = 1) := by
  constructor
  · intro g w prng buf OC st' r hol heq _
    have h := mutateNonterm_genSafe g w.capacity (w.capacity + 1) g.entry
      (initState w prng buf) 0 OC hol
    have heq' : mutateNonterm g 0 w.capacity (w.capacity + 1) g.entry
        (initState w prng buf) 0 OC = (st', r) := heq
    rw [heq'] at h
    refine ⟨h.1, ?_⟩
    intro hok j hj
    exact h.2.2 hok j (Nat.zero_le _) (by omega)
  · exact ⟨by decide, by decide⟩

/-- Closed witness for `C4_amended` on the `gExact` exact-fill run. -/
theorem C4_amended_witness :
    (chameleon_generate gExact (chameleon_init zbuf 4) 1 zbuf 2).2 ≤ 2 ∧
    ((chameleon_generate gExact (chameleon_init zbuf 4) 1 zbuf 2).1.ok = true →
      ∀ j, j < (chameleon_generate gExact (chameleon_init zbuf 4) 1 zbuf 2).2 →
        (chameleon_generate gExact (chameleon_init zbuf 4) 1 zbuf 2).1.wr j = true) :=
  C4_amended.1 gExact (chameleon_init zbuf 4) 1 zbuf 2
    (chameleon_generate gExact (chameleon_init zbuf 4) 1 zbuf 2).1
    (chameleon_generate gExact (chameleon_init zbuf 4) 1 zbuf 2).2
    (by norm_num) rfl (by decide)

/-! ## Determinism of the generate path

Two generate runs from the same PRNG state and the same step counter
behave identically: with replay length 0 the step array is never read,
so its contents (and the initial buffer, except where this run has
already written) cannot influence the run.  `DetRel` relates the two
runs' states: equal step counters, equal PRNG states, equal ghost write
marks, and equal buffer bytes at every position this run has marked. -/
def DetRel (st₁ st₂ : RunState) : Prop :=
  st₁.step = st₂.step ∧ st₁.prng = st₂.prng ∧ (∀ i, st₁.wr i = st₂.wr i) ∧
  (∀ i, st₁.wr i = true → st₁.buf i = st₂.buf i)

theorem DetRel_writeBytes {st₁ st₂ : RunState} (h : DetRel st₁ st₂) (c : Nat)
    (bs : List Nat) : DetRel (writeBytes st₁ c bs) (writeBytes st₂ c bs) := by
  obtain ⟨hstep, hprng, hwr, hbuf⟩ := h
  refine ⟨hstep, hprng, fun i => by simp [writeBytes, hwr i], ?_⟩
  intro i hw
  by_cases hin : c ≤ i ∧ i < c + bs.length
  · simp [writeBytes, hin]
  · have hw1 : st₁.wr i = true := by
      simp only [writeBytes, Bool.or_eq_true, decide_eq_true_eq] at hw
      rcases hw with hw | hw
      · exact hw
      · exact absurd hw hin
    simp only [writeBytes, if_neg hin]
    exact hbuf i hw1

theorem numbersetValue_det (ns : NumbersetDef) {st₁ st₂ : RunState}
    (h : st₁.prng = st₂.prng) :
    (numbersetValue ns st₁).1 = (numbersetValue ns st₂).1 ∧
    (numbersetValue ns st₁).2.prng = (numbersetValue ns st₂).2.prng := by
  unfold numbersetValue
  rcases ns with ⟨ranges, w⟩
  match ranges with
  | [] => exact ⟨rfl, h⟩
  | [r] => simp [h]
  | r₁ :: r₂ :: rest => simp [h]

theorem numbersetValue_step (ns : NumbersetDef) (st : RunState) :
    (numbersetValue ns st).2.step = st.step := by
  unfold numbersetValue
  rcases ns with ⟨ranges, w⟩
  match ranges with
  | [] => rfl
  | [r] => rfl
  | r₁ :: r₂ :: rest => rfl

theorem runSymbolsWith_det {f : Nat → RunState → Nat → Nat → RunState × Nat}
    (hf : ∀ id st₁ st₂ c ol, DetRel st₁ st₂ →
      DetRel (f id st₁ c ol).1 (f id st₂ c ol).1 ∧ (f id st₁ c ol).2 = (f id st₂ c ol).2) :
    ∀ (syms : List GSymbol) (mutate : Bool) (st₁ st₂ : RunState) (c ol orig : Nat),
      DetRel st₁ st₂ →
      DetRel (runSymbolsWith f mutate syms st₁ c ol orig).1
        (runSymbolsWith f mutate syms st₂ c ol orig).1 ∧
      (runSymbolsWith f mutate syms st₁ c ol orig).2 =
        (runSymbolsWith f mutate syms st₂ c ol orig).2 := by
  intro syms
  induction syms with
  | nil =>
      intro mutate st₁ st₂ c ol orig h
      exact ⟨h, rfl⟩
  | cons sym rest ih =>
      intro mutate st₁ st₂ c ol orig h
      obtain ⟨hstep, hprng, hwr, hbuf⟩ := h
      cases sym with
      | bytes content =>
          by_cases hm : mutate
          · by_cases hlen : content.length > ol
            · simp only [runSymbolsWith, if_pos hm, if_pos hlen]
              exact ⟨⟨hstep, hprng, hwr, hbuf⟩, by trivial⟩
            · simp only [runSymbolsWith, if_pos hm, if_neg hlen]
              exact ih _ _ _ _ _ _ (DetRel_writeBytes ⟨hstep, hprng, hwr, hbuf⟩ c content)
          · simp only [runSymbolsWith, if_neg hm]
            exact ih _ _ _ _ _ _ ⟨hstep, hprng, hwr, hbuf⟩
      | num ns =>
          by_cases hm : mutate
          · by_cases hlen : ns.width > ol
            · simp only [runSymbolsWith, if_pos hm, if_pos hlen]
              exact ⟨⟨hstep, hprng, hwr, hbuf⟩, by trivial⟩
            · simp only [runSymbolsWith, if_pos hm, if_neg hlen]
              obtain ⟨hv, hvp⟩ := numbersetValue_det ns hprng
              obtain ⟨hb1, hw1, _⟩ := numbersetValue_buf_wr ns st₁
              obtain ⟨hb2, hw2, _⟩ := numbersetValue_buf_wr ns st₂
              have hrel : DetRel (numbersetValue ns st₁).2 (numbersetValue ns st₂).2 := by
                refine ⟨?_, hvp, ?_, ?_⟩
                · rw [numbersetValue_step, numbersetValue_step, hstep]
                · intro i
                  rw [hw1, hw2]
                  exact hwr i
                · intro i hi
                  rw [hb1, hb2]
                  rw [hw1] at hi
                  exact hbuf i hi
              have hdw := DetRel_writeBytes hrel c (leBytes ns.width (numbersetValue ns st₁).1)
              nth_rewrite 2 [hv] at hdw
              exact ih _ _ _ _ _ _ hdw
          · simp only [runSymbolsWith, if_neg hm]
            exact ih _ _ _ _ _ _ ⟨hstep, hprng, hwr, hbuf⟩
      | nt id =>
          simp only [runSymbolsWith]
          obtain ⟨hrel, hr⟩ := hf id st₁ st₂ c ol ⟨hstep, hprng, hwr, hbuf⟩
          rw [hr]
          exact ih _ _ _ _ _ _ hrel

theorem mutateNonterm_det (g : Grammar) (capacity : Nat) :
    ∀ (fuel ntId : Nat) (st₁ st₂ : RunState) (c ol : Nat), DetRel st₁ st₂ →
      DetRel (mutateNonterm g 0 capacity fuel ntId st₁ c ol).1
        (mutateNonterm g 0 capacity fuel ntId st₂ c ol).1 ∧
      (mutateNonterm g 0 capacity fuel ntId st₁ c ol).2 =
        (mutateNonterm g 0 capacity fuel ntId st₂ c ol).2 := by
  intro fuel
  induction fuel with
  | zero =>
      intro ntId st₁ st₂ c ol h
      obtain ⟨hstep, hprng, hwr, hbuf⟩ := h
      exact ⟨⟨hstep, hprng, hwr, hbuf⟩, rfl⟩
  | succ fuel ih =>
      intro ntId st₁ st₂ c ol h
      obtain ⟨hstep, hprng, hwr, hbuf⟩ := h
      simp only [mutateNonterm]
      rw [← hstep]
      by_cases hk : ((g.sets.get? ntId).getD { rules := [], triangular := false }).rules.length ≤ 1
      · simp only [if_pos hk]
        by_cases hempty :
            hasNoSymbols ((g.sets.get? ntId).getD { rules := [], triangular := false }).rules
        · simp only [if_pos hempty]
          by_cases hs : st₁.step < capacity
          · simp only [if_pos hs]
            exact ⟨⟨by simp [hstep], hprng, hwr, hbuf⟩, by trivial⟩
          · simp only [if_neg hs]
            exact ⟨⟨hstep, hprng, hwr, hbuf⟩, by trivial⟩
        · simp only [if_neg hempty]
          by_cases hs : st₁.step ≥ capacity
          · simp only [if_pos hs]
            exact ⟨⟨rfl, hprng, hwr, hbuf⟩, by trivial⟩
          · simp only [if_neg hs]
            exact runSymbolsWith_det ih _ _ _ _ _ _ _
              ⟨by simp [hstep], hprng, hwr, hbuf⟩
      · simp only [if_neg hk]
        by_cases hs : st₁.step ≥ capacity
        · simp only [if_pos hs]
          exact ⟨⟨rfl, hprng, hwr, hbuf⟩, by trivial⟩
        · simp only [if_neg hs]
          have hsel : ∀ tri k, (dispatchSelect g 0 tri k st₁.step { st₁ with step := st₁.step + 1 }).1 =
              (dispatchSelect g 0 tri k st₁.step { st₂ with step := st₁.step + 1 }).1 := by
            intro tri k
            simp [dispatchSelect, hprng]
          have hseld : ∀ tri k,
              DetRel (dispatchSelect g 0 tri k st₁.step { st₁ with step := st₁.step + 1 }).2
                (dispatchSelect g 0 tri k st₁.step { st₂ with step := st₁.step + 1 }).2 := by
            intro tri k
            unfold dispatchSelect
            rw [if_pos (Nat.zero_le _), if_pos (Nat.zero_le _)]
            exact ⟨by simp, by simp [hprng], hwr, hbuf⟩
          rw [← hsel]
          by_cases hrule :
              (dispatchSelect g 0
                ((g.sets.get? ntId).getD { rules := [], triangular := false }).triangular
                ((g.sets.get? ntId).getD { rules := [], triangular := false }).rules.length
                st₁.step { st₁ with step := st₁.step + 1 }).1 <
              ((g.sets.get? ntId).getD { rules := [], triangular := false }).rules.length
          · simp only [if_pos hrule]
            exact runSymbolsWith_det ih _ _ _ _ _ _ _ (hseld _ _)
          · simp only [if_neg hrule]
            obtain ⟨ha, hb, hc, hd⟩ := hseld
              ((g.sets.get? ntId).getD { rules := [], triangular := false }).triangular
              ((g.sets.get? ntId).getD { rules := [], triangular := false }).rules.length
            exact ⟨⟨ha, hb, hc, hd⟩, by trivial⟩

/-- C7: `generate` is deterministic given the PRNG state and the walk.
Running `chameleon_generate`, then restoring the PRNG state to `σ` and
running it again on the same (now modified) walk with the same
capacities reproduces the run byte-for-byte: the second run returns the
same count, ends at the same walk length, and leaves the output buffer
pointwise identical — `generate` never reads the step array (replay
length 0), so the walk contents left by the first run cannot influence
the second. -/
theorem C7_generate_deterministic (g : Grammar) (w : Walk) (prng : Nat) (buf : Nat → Nat)
    (OC : Nat) (st₁ : RunState) (r₁ : Nat) (st₂ : RunState) (r₂ : Nat)
    (h₁ : chameleon_generate g w prng buf OC = (st₁, r₁))
    (h₂ : chameleon_generate g (walkOf st₁ w.capacity) prng st₁.buf OC = (st₂, r₂)) :
    r₂ = r₁ ∧ st₂.step = st₁.step ∧ st₂.buf = st₁.buf := by
  have hdet := mutateNonterm_det g w.capacity (w.capacity + 1) g.entry
    (initState w prng buf) (initState (walkOf st₁ w.capacity) prng st₁.buf) 0 OC
    ⟨rfl, rfl, fun _ => rfl, fun i hi => by simp [initState] at hi⟩
  have hA : mutateNonterm g 0 w.capacity (w.capacity + 1) g.entry
      (initState w prng buf) 0 OC = (st₁, r₁) := h₁
  have hB : mutateNonterm g 0 w.capacity (w.capacity + 1) g.entry
      (initState (walkOf st₁ w.capacity) prng st₁.buf) 0 OC = (st₂, r₂) := h₂
  rw [hA, hB] at hdet
  obtain ⟨⟨hstep, _, hwr, hbuf⟩, hr⟩ := hdet
  have hinv := mutateNonterm_StInv g 0 w.capacity (w.capacity + 1) g.entry
    (initState (walkOf st₁ w.capacity) prng st₁.buf) 0 OC
  rw [hB] at hinv
  refine ⟨hr.symm, hstep.symm, ?_⟩
  funext i
  cases hwi : st₂.wr i
  · exact ((hinv.2.2.2.2.2 i hwi).2 : st₂.buf i = (initState (walkOf st₁ w.capacity) prng st₁.buf).buf i)
  · have h1 : st₁.wr i = true := by rw [hwr i, hwi]
    exact (hbuf i h1).symm

/-- Closed witness for `C7_generate_deterministic` on the non-triangular
`S → 'a' S | ε` grammar with seed 4. -/
theorem C7_generate_deterministic_witness :
    (chameleon_generate (gS false) (walkOf (chameleon_generate (gS false) w8 4 zbuf 16).1
        w8.capacity) 4 (chameleon_generate (gS false) w8 4 zbuf 16).1.buf 16).2 =
      (chameleon_generate (gS false) w8 4 zbuf 16).2 ∧
    (chameleon_generate (gS false) (walkOf (chameleon_generate (gS false) w8 4 zbuf 16).1
        w8.capacity) 4 (chameleon_generate (gS false) w8 4 zbuf 16).1.buf 16).1.step =
      (chameleon_generate (gS false) w8 4 zbuf 16).1.step ∧
    (chameleon_generate (gS false) (walkOf (chameleon_generate (gS false) w8 4 zbuf 16).1
        w8.capacity) 4 (chameleon_generate (gS false) w8 4 zbuf 16).1.buf 16).1.buf =
      (chameleon_generate (gS false) w8 4 zbuf 16).1.buf :=
  C7_generate_deterministic (gS false) w8 4 zbuf 16
    (chameleon_generate (gS false) w8 4 zbuf 16).1
    (chameleon_generate (gS false) w8 4 zbuf 16).2
    (chameleon_generate (gS false) (walkOf (chameleon_generate (gS false) w8 4 zbuf 16).1
        w8.capacity) 4 (chameleon_generate (gS false) w8 4 zbuf 16).1.buf 16).1
    (chameleon_generate (gS false) (walkOf (chameleon_generate (gS false) w8 4 zbuf 16).1
        w8.capacity) 4 (chameleon_generate (gS false) w8 4 zbuf 16).1.buf 16).2
    Prod.mk.eta.symm Prod.mk.eta.symm

/-! ## Replay simulation

A generate run (replay length 0) stores at `steps[s]` the rule it chose
at every dispatch position `s`.  Replaying the resulting prefix — a call
with replay length at least the final step count, on the final step
array — takes exactly the same branches, advances the cursor by exactly
the same amounts, consumes no randomness, and writes nothing: neither
byte-literal terminals nor number sets are re-emitted at replayed
positions (both are gated by `mutate`), the output buffer simply retains
the bytes of the earlier run. -/

theorem writeBytes_step (st : RunState) (c : Nat) (bs : List Nat) :
    (writeBytes st c bs).step = st.step := rfl

theorem writeBytes_steps (st : RunState) (c : Nat) (bs : List Nat) :
    (writeBytes st c bs).steps = st.steps := rfl

theorem writeBytes_depthHit (st : RunState) (c : Nat) (bs : List Nat) :
    (writeBytes st c bs).depthHit = st.depthHit := rfl

/-- Pairwise simulation hypothesis for the recursive interpreters of the
generating run (`fg`, replay length 0) and the replaying run (`fr`). -/
def SimRec (lenr : Nat) (fg fr : Nat → RunState → Nat → Nat → RunState × Nat) : Prop :=
  ∀ id st_g st_r c_g c_r ol_g ol_r,
    st_r.step = st_g.step →
    (fg id st_g c_g ol_g).1.ok = true →
    (fg id st_g c_g ol_g).1.ub = false →
    (fg id st_g c_g ol_g).1.step ≤ lenr →
    (∀ i, st_g.step ≤ i → i < (fg id st_g c_g ol_g).1.step →
      st_r.steps i = (fg id st_g c_g ol_g).1.steps i) →
    (fr id st_r c_r ol_r).2 = (fg id st_g c_g ol_g).2 ∧
    (fr id st_r c_r ol_r).1.step = (fg id st_g c_g ol_g).1.step ∧
    (fr id st_r c_r ol_r).1.steps = st_r.steps ∧
    (fr id st_r c_r ol_r).1.prng = st_r.prng ∧
    (fr id st_r c_r ol_r).1.buf = st_r.buf ∧
    (fr id st_r c_r ol_r).1.wr = st_r.wr ∧
    (fr id st_r c_r ol_r).1.ok = st_r.ok

theorem runSymbolsWith_sim {capacity lenr : Nat}
    {fg fr : Nat → RunState → Nat → Nat → RunState × Nat}
    (hginv : ∀ id st c ol, StInv capacity st (fg id st c ol).1)
    (hrec : SimRec lenr fg fr) :
    ∀ (syms : List GSymbol) (st_g st_r : RunState) (c_g c_r ol_g ol_r orig_g orig_r : Nat),
      st_r.step = st_g.step → orig_g ≤ c_g → orig_r ≤ c_r → c_g - orig_g = c_r - orig_r →
      (runSymbolsWith fg true syms st_g c_g ol_g orig_g).1.ok = true →
      (runSymbolsWith fg true syms st_g c_g ol_g orig_g).1.ub = false →
      (runSymbolsWith fg true syms st_g c_g ol_g orig_g).1.step ≤ lenr →
      (∀ i, st_g.step ≤ i → i < (runSymbolsWith fg true syms st_g c_g ol_g orig_g).1.step →
        st_r.steps i = (runSymbolsWith fg true syms st_g c_g ol_g orig_g).1.steps i) →
      (runSymbolsWith fr false syms st_r c_r ol_r orig_r).2 =
        (runSymbolsWith fg true syms st_g c_g ol_g orig_g).2 ∧
      (runSymbolsWith fr false syms st_r c_r ol_r orig_r).1.step =
        (runSymbolsWith fg true syms st_g c_g ol_g orig_g).1.step ∧
      (runSymbolsWith fr false syms st_r c_r ol_r orig_r).1.steps = st_r.steps ∧
      (runSymbolsWith fr false syms st_r c_r ol_r orig_r).1.prng = st_r.prng ∧
      (runSymbolsWith fr false syms st_r c_r ol_r orig_r).1.buf = st_r.buf ∧
      (runSymbolsWith fr false syms st_r c_r ol_r orig_r).1.wr = st_r.wr ∧
      (runSymbolsWith fr false syms st_r c_r ol_r orig_r).1.ok = st_r.ok := by
  intro syms
  induction syms with
  | nil =>
      intro st_g st_r c_g c_r ol_g ol_r orig_g orig_r hstep ho1 ho2 hdiff hok hub hle hagree
      simp only [runSymbolsWith]
      exact ⟨by omega, hstep, by trivial, by trivial, by trivial, by trivial, by trivial⟩
  | cons sym rest ih =>
      intro st_g st_r c_g c_r ol_g ol_r orig_g orig_r hstep ho1 ho2 hdiff hok hub hle hagree
      cases sym with
      | bytes content =>
          by_cases hlen : content.length > ol_g
          · simp only [runSymbolsWith, if_true, if_pos hlen] at hok
            simp at hok
          · simp only [runSymbolsWith, if_true, if_neg hlen] at hok hub hle hagree ⊢
            exact ih (writeBytes st_g c_g content) st_r (c_g + content.length)
              (c_r + content.length) (wsub ol_g content.length) (wsub ol_r content.length)
              orig_g orig_r hstep (by omega) (by omega) (by omega) hok hub hle hagree
      | num ns =>
          by_cases hlen : ns.width > ol_g
          · simp only [runSymbolsWith, if_true, if_pos hlen] at hok
            simp at hok
          · simp only [runSymbolsWith, if_true, if_neg hlen] at hok hub hle hagree ⊢
            have hstep' : st_r.step =
                (writeBytes (numbersetValue ns st_g).2 c_g
                  (leBytes ns.width (numbersetValue ns st_g).1)).step := by
              rw [writeBytes_step, numbersetValue_step]
              exact hstep
            refine ih _ st_r (c_g + ns.width) (c_r + ns.width)
              (wsub ol_g ns.width) (wsub ol_r ns.width) orig_g orig_r hstep'
              (by omega) (by omega) (by omega) hok hub hle ?_
            intro i h1 h2
            refine hagree i ?_ h2
            rw [writeBytes_step, numbersetValue_step] at h1
            exact h1
      | nt id =>
          simp only [runSymbolsWith] at hok hub hle hagree ⊢
          have hchildinv := hginv id st_g c_g ol_g
          have hrestinv := runSymbolsWith_StInv hginv rest true (fg id st_g c_g ol_g).1
            (c_g + (fg id st_g c_g ol_g).2) (wsub ol_g (fg id st_g c_g ol_g).2) orig_g
          have hcok : (fg id st_g c_g ol_g).1.ok = true := hrestinv.2.2.2.1 hok
          have hcub : (fg id st_g c_g ol_g).1.ub = false := by
            cases hcu : (fg id st_g c_g ol_g).1.ub
            · rfl
            · have : (runSymbolsWith fg true rest (fg id st_g c_g ol_g).1
                  (c_g + (fg id st_g c_g ol_g).2) (wsub ol_g (fg id st_g c_g ol_g).2)
                  orig_g).1.ub = true := by
                cases hfu : (runSymbolsWith fg true rest (fg id st_g c_g ol_g).1
                    (c_g + (fg id st_g c_g ol_g).2) (wsub ol_g (fg id st_g c_g ol_g).2)
                    orig_g).1.ub
                · exact absurd (hrestinv.2.2.2.2.1 hfu) (by simp [hcu])
                · rfl
              rw [hub] at this
              exact absurd this (by simp)
          have hcle : (fg id st_g c_g ol_g).1.step ≤ lenr :=
            le_trans hrestinv.1 hle
          have hcagree : ∀ i, st_g.step ≤ i → i < (fg id st_g c_g ol_g).1.step →
              st_r.steps i = (fg id st_g c_g ol_g).1.steps i := by
            intro i h1 h2
            have h3 : i < (runSymbolsWith fg true rest (fg id st_g c_g ol_g).1
                (c_g + (fg id st_g c_g ol_g).2) (wsub ol_g (fg id st_g c_g ol_g).2)
                orig_g).1.step := lt_of_lt_of_le h2 hrestinv.1
            rw [hagree i h1 h3]
            exact hrestinv.2.2.1 i (Or.inl h2)
          obtain ⟨hcr, hcstep, hcsteps, hcprng, hcbuf, hcwr, hcok'⟩ :=
            hrec id st_g st_r c_g c_r ol_g ol_r hstep hcok hcub hcle hcagree
          rw [hcr]
          have hrest := ih (fg id st_g c_g ol_g).1 (fr id st_r c_r ol_r).1
            (c_g + (fg id st_g c_g ol_g).2) (c_r + (fg id st_g c_g ol_g).2)
            (wsub ol_g (fg id st_g c_g ol_g).2) (wsub ol_r (fg id st_g c_g ol_g).2)
            orig_g orig_r (by rw [hcstep]) (by omega) (by omega) (by omega) hok hub hle ?_
          · obtain ⟨h1, h2, h3, h4, h5, h6, h7⟩ := hrest
            refine ⟨h1, h2, by rw [h3, hcsteps], by rw [h4, hcprng], by rw [h5, hcbuf],
              by rw [h6, hcwr], by rw [h7, hcok']⟩
          · intro i h1 h2
            rw [hcsteps]
            refine hagree i ?_ h2
            exact le_trans hchildinv.1 h1

theorem dispatchSelect_step (g : Grammar) (len : Nat) (tri : Bool) (k s : Nat)
    (st : RunState) : (dispatchSelect g len tri k s st).2.step = st.step := by
  unfold dispatchSelect
  by_cases h : s ≥ len
  · simp only [if_pos h]
  · simp only [if_neg h]

theorem dispatchSelect_zero_steps_self (g : Grammar) (tri : Bool) (k s : Nat)
    (st : RunState) :
    (dispatchSelect g 0 tri k s st).2.steps s = (dispatchSelect g 0 tri k s st).1 := by
  unfold dispatchSelect
  rw [if_pos (Nat.zero_le _)]
  simp

theorem dispatchSelect_replay {g : Grammar} {len : Nat} (tri : Bool) (k : Nat) {s : Nat}
    (h : s < len) (st : RunState) :
    dispatchSelect g len tri k s st = (st.steps s, st) := by
  unfold dispatchSelect
  rw [if_neg (by omega)]

theorem mutateNonterm_sim (g : Grammar) (capacity lenr : Nat) :
    ∀ fuel, SimRec lenr (mutateNonterm g 0 capacity fuel) (mutateNonterm g lenr capacity fuel) := by
  intro fuel
  induction fuel with
  | zero =>
      intro id st_g st_r c_g c_r ol_g ol_r hstep hok hub hle hagree
      simp only [mutateNonterm] at hub
      exact absurd hub (by simp)
  | succ fuel ih =>
      intro id st_g st_r c_g c_r ol_g ol_r hstep hok hub hle hagree
      simp only [mutateNonterm] at hok hub hle hagree ⊢
      rw [hstep]
      by_cases hk : ((g.sets.get? id).getD { rules := [], triangular := false }).rules.length ≤ 1
      · simp only [if_pos hk] at hok hub hle hagree ⊢
        by_cases hempty :
            hasNoSymbols ((g.sets.get? id).getD { rules := [], triangular := false }).rules
        · simp only [if_pos hempty] at hok hub hle hagree ⊢
          by_cases hs : st_g.step < capacity
          · simp only [if_pos hs] at hok hub hle hagree ⊢
            refine ⟨?_, ?_, ?_, ?_, ?_, ?_, ?_⟩ <;> simp [hstep]
          · simp only [if_neg hs] at hok hub hle hagree ⊢
            refine ⟨?_, ?_, ?_, ?_, ?_, ?_, ?_⟩ <;> simp [hstep]
        · simp only [if_neg hempty] at hok hub hle hagree ⊢
          by_cases hs : st_g.step ≥ capacity
          · simp only [if_pos hs] at hok hub hle hagree ⊢
            refine ⟨?_, ?_, ?_, ?_, ?_, ?_, ?_⟩ <;> simp [hstep]
          · simp only [if_neg hs] at hok hub hle hagree ⊢
            have hgflag : decide (st_g.step ≥ 0) = true := by simp
            rw [hgflag] at hok hub hle hagree ⊢
            have hlinv := runSymbolsWith_StInv (mutateNonterm_StInv g 0 capacity fuel)
              ((((g.sets.get? id).getD { rules := [], triangular := false }).rules.get? 0).getD [])
              true { st_g with step := st_g.step + 1 } c_g ol_g c_g
            have hrflag : decide (st_g.step ≥ lenr) = false := by
              have h1 : st_g.step + 1 ≤ lenr := le_trans hlinv.1 hle
              simp only [decide_eq_false_iff_not]
              omega
            rw [hrflag]
            have hsim := runSymbolsWith_sim (mutateNonterm_StInv g 0 capacity fuel) ih
              ((((g.sets.get? id).getD { rules := [], triangular := false }).rules.get? 0).getD [])
              { st_g with step := st_g.step + 1 } { st_r with step := st_g.step + 1 }
              c_g c_r ol_g ol_r c_g c_r rfl (le_refl _) (le_refl _) (by omega) hok hub hle
              (fun i h1 h2 => hagree i (by exact le_trans (Nat.le_succ _) h1) h2)
            exact hsim
      · simp only [if_neg hk] at hok hub hle hagree ⊢
        by_cases hs : st_g.step ≥ capacity
        · simp only [if_pos hs] at hok hub hle hagree ⊢
          refine ⟨?_, ?_, ?_, ?_, ?_, ?_, ?_⟩ <;> simp [hstep]
        · simp only [if_neg hs] at hok hub hle hagree ⊢
          by_cases hrule :
              (dispatchSelect g 0
                ((g.sets.get? id).getD { rules := [], triangular := false }).triangular
                ((g.sets.get? id).getD { rules := [], triangular := false }).rules.length
                st_g.step { st_g with step := st_g.step + 1 }).1 <
              ((g.sets.get? id).getD { rules := [], triangular := false }).rules.length
          · simp only [if_pos hrule] at hok hub hle hagree ⊢
            have hgflag : decide (st_g.step ≥ 0) = true := by simp
            rw [hgflag] at hok hub hle hagree ⊢
            have hlinv := runSymbolsWith_StInv (mutateNonterm_StInv g 0 capacity fuel)
              ((((g.sets.get? id).getD { rules := [], triangular := false }).rules.get?
                (dispatchSelect g 0
                  ((g.sets.get? id).getD { rules := [], triangular := false }).triangular
                  ((g.sets.get? id).getD { rules := [], triangular := false }).rules.length
                  st_g.step { st_g with step := st_g.step + 1 }).1).getD []) true
              (dispatchSelect g 0
                ((g.sets.get? id).getD { rules := [], triangular := false }).triangular
                ((g.sets.get? id).getD { rules := [], triangular := false }).rules.length
                st_g.step { st_g with step := st_g.step + 1 }).2 c_g ol_g c_g
            have hstep2 : (dispatchSelect g 0
                ((g.sets.get? id).getD { rules := [], triangular := false }).triangular
                ((g.sets.get? id).getD { rules := [], triangular := false }).rules.length
                st_g.step { st_g with step := st_g.step + 1 }).2.step = st_g.step + 1 :=
              dispatchSelect_step _ _ _ _ _ _
            have hslt : st_g.step < lenr := by
              have h1 := hlinv.1
              rw [hstep2] at h1
              omega
            have hrflag : decide (st_g.step ≥ lenr) = false := by
              simp only [decide_eq_false_iff_not]
              omega
            rw [hrflag]
            simp only [dispatchSelect_replay
              ((g.sets.get? id).getD { rules := [], triangular := false }).triangular
              ((g.sets.get? id).getD { rules := [], triangular := false }).rules.length
              hslt]
            have hrule_r : ({ st_r with step := st_g.step + 1 } : RunState).steps st_g.step =
                (dispatchSelect g 0
                  ((g.sets.get? id).getD { rules := [], triangular := false }).triangular
                  ((g.sets.get? id).getD { rules := [], triangular := false }).rules.length
                  st_g.step { st_g with step := st_g.step + 1 }).1 := by
              show st_r.steps st_g.step = _
              have hlt : st_g.step <
                  (runSymbolsWith (mutateNonterm g 0 capacity fuel) true
                    ((((g.sets.get? id).getD { rules := [], triangular := false }).rules.get?
                      (dispatchSelect g 0
                        ((g.sets.get? id).getD { rules := [], triangular := false }).triangular
                        ((g.sets.get? id).getD { rules := [], triangular := false }).rules.length
                        st_g.step { st_g with step := st_g.step + 1 }).1).getD [])
                    (dispatchSelect g 0
                      ((g.sets.get? id).getD { rules := [], triangular := false }).triangular
                      ((g.sets.get? id).getD { rules := [], triangular := false }).rules.length
                      st_g.step { st_g with step := st_g.step + 1 }).2 c_g ol_g c_g).1.step := by
                have h1 := hlinv.1
                rw [hstep2] at h1
                omega
              rw [hagree st_g.step (le_refl _) hlt,
                hlinv.2.2.1 st_g.step (Or.inl (by rw [hstep2]; omega))]
              exact dispatchSelect_zero_steps_self g _ _ _ _
            rw [hrule_r, if_pos hrule]
            have hsim := runSymbolsWith_sim (mutateNonterm_StInv g 0 capacity fuel) ih
              ((((g.sets.get? id).getD { rules := [], triangular := false }).rules.get?
                (dispatchSelect g 0
                  ((g.sets.get? id).getD { rules := [], triangular := false }).triangular
                  ((g.sets.get? id).getD { rules := [], triangular := false }).rules.length
                  st_g.step { st_g with step := st_g.step + 1 }).1).getD [])
              (dispatchSelect g 0
                ((g.sets.get? id).getD { rules := [], triangular := false }).triangular
                ((g.sets.get? id).getD { rules := [], triangular := false }).rules.length
                st_g.step { st_g with step := st_g.step + 1 }).2
              { st_r with step := st_g.step + 1 }
              c_g c_r ol_g ol_r c_g c_r (by rw [hstep2]) (le_refl _) (le_refl _) (by omega)
              hok hub hle ?_
            · exact hsim
            · intro i h1 h2
              rw [hstep2] at h1
              exact hagree i (by omega) h2
          · simp only [if_neg hrule] at hub
            exact absurd hub (by simp)

/-- C2 counterexample.  In the dispatching form, byte-literal terminals
are *not* written unconditionally: the `memcpy` is gated by `mutate`
(`src/templates/full/mutations.c` lines 126-131).  Replaying a walk of
length 1 over the grammar `gT` (rule 0 emits the byte 65) into an
all-zero buffer advances the cursor past position 0 (return value 1),
yet the buffer still holds 0 there — the terminal was not re-emitted. -/
theorem C2_counterexample :
    (replayThenFresh gT { steps := zbuf, length := 1, capacity := 1 } 1 1 zbuf 10).2 = 1 ∧
    (replayThenFresh gT { steps := zbuf, length := 1, capacity := 1 } 1 1 zbuf 10).1.buf 0 = 0 := by
  exact ⟨by decide, by decide⟩

/-- C2 amended (replay fidelity).  After a successful, UB-free
`chameleon_generate` (no output-length check failed) that wrote output O
into the buffer and left the walk at length L, a mutation whose
truncation point is forced to L — the inner call with replay prefix L on
the resulting walk — replays the entire walk: it returns the same byte
count, leaves the output buffer pointwise identical (so it still holds
O), ends at walk length L, writes nothing (all ghost write marks stay
clear) and consumes no randomness.  Byte-literal terminals, like number
sets, are re-emitted only at positions being mutated; at replayed
positions the cursor advances over bytes the buffer already holds from
the earlier run. -/
theorem C2_replay_fidelity (g : Grammar) (w : Walk) (prng : Nat) (buf : Nat → Nat)
    (OC : Nat) (st₁ : RunState) (r₁ : Nat) (prng' OC' : Nat)
    (h₁ : chameleon_generate g w prng buf OC = (st₁, r₁))
    (hok : st₁.ok = true) (hub : st₁.ub = false) :
    (replayThenFresh g (walkOf st₁ w.capacity) st₁.step prng' st₁.buf OC').2 = r₁ ∧
    (replayThenFresh g (walkOf st₁ w.capacity) st₁.step prng' st₁.buf OC').1.buf = st₁.buf ∧
    (replayThenFresh g (walkOf st₁ w.capacity) st₁.step prng' st₁.buf OC').1.step = st₁.step ∧
    (replayThenFresh g (walkOf st₁ w.capacity) st₁.step prng' st₁.buf OC').1.wr =
      (fun _ => false) ∧
    (replayThenFresh g (walkOf st₁ w.capacity) st₁.step prng' st₁.buf OC').1.prng = prng' := by
  have hA : mutateNonterm g 0 w.capacity (w.capacity + 1) g.entry
      (initState w prng buf) 0 OC = (st₁, r₁) := h₁
  have hsim := mutateNonterm_sim g w.capacity st₁.step (w.capacity + 1) g.entry
    (initState w prng buf) (initState (walkOf st₁ w.capacity) prng' st₁.buf) 0 0 OC OC'
    rfl (by rw [hA]; exact hok) (by rw [hA]; exact hub) (by rw [hA])
    (by intro i h1 h2; rw [hA]; rfl)
  rw [hA] at hsim
  obtain ⟨h1, h2, h3, h4, h5, h6, h7⟩ := hsim
  exact ⟨h1, h5, h2, h6, h4⟩

/-- Closed witness for `C2_replay_fidelity`: the non-triangular
`S → 'a' S | ε` grammar with seed 4 (four `'a'` bytes, walk length 5),
replayed with a fresh PRNG state 99. -/
theorem C2_replay_fidelity_witness :
    (replayThenFresh (gS false) (walkOf (chameleon_generate (gS false) w8 4 zbuf 16).1
        w8.capacity) (chameleon_generate (gS false) w8 4 zbuf 16).1.step 99
        (chameleon_generate (gS false) w8 4 zbuf 16).1.buf 16).2 =
      (chameleon_generate (gS false) w8 4 zbuf 16).2 ∧
    (replayThenFresh (gS false) (walkOf (chameleon_generate (gS false) w8 4 zbuf 16).1
        w8.capacity) (chameleon_generate (gS false) w8 4 zbuf 16).1.step 99
        (chameleon_generate (gS false) w8 4 zbuf 16).1.buf 16).1.buf =
      (chameleon_generate (gS false) w8 4 zbuf 16).1.buf ∧
    (replayThenFresh (gS false) (walkOf (chameleon_generate (gS false) w8 4 zbuf 16).1
        w8.capacity) (chameleon_generate (gS false) w8 4 zbuf 16).1.step 99
        (chameleon_generate (gS false) w8 4 zbuf 16).1.buf 16).1.step =
      (chameleon_generate (gS false) w8 4 zbuf 16).1.step ∧
    (replayThenFresh (gS false) (walkOf (chameleon_generate (gS false) w8 4 zbuf 16).1
        w8.capacity) (chameleon_generate (gS false) w8 4 zbuf 16).1.step 99
        (chameleon_generate (gS false) w8 4 zbuf 16).1.buf 16).1.wr = (fun _ => false) ∧
    (replayThenFresh (gS false) (walkOf (chameleon_generate (gS false) w8 4 zbuf 16).1
        w8.capacity) (chameleon_generate (gS false) w8 4 zbuf 16).1.step 99
        (chameleon_generate (gS false) w8 4 zbuf 16).1.buf 16).1.prng = 99 :=
  C2_replay_fidelity (gS false) w8 4 zbuf 16
    (chameleon_generate (gS false) w8 4 zbuf 16).1
    (chameleon_generate (gS false) w8 4 zbuf 16).2 99 16
    Prod.mk.eta.symm (by decide) (by decide)

/-! ## The scenario grammar S → 'a' S | ε -/

theorem dispatchSelect_depthHit (g : Grammar) (len : Nat) (tri : Bool) (k s : Nat)
    (st : RunState) : (dispatchSelect g len tri k s st).2.depthHit = st.depthHit := by
  unfold dispatchSelect
  by_cases h : s ≥ len
  · simp only [if_pos h]
  · simp only [if_neg h]

theorem dispatchSelect_buf (g : Grammar) (len : Nat) (tri : Bool) (k s : Nat)
    (st : RunState) : (dispatchSelect g len tri k s st).2.buf = st.buf := by
  unfold dispatchSelect
  by_cases h : s ≥ len
  · simp only [if_pos h]
  · simp only [if_neg h]

theorem gS_run_shape (tf : Bool) (capacity : Nat) :
    ∀ (fuel : Nat) (st : RunState) (c ol : Nat),
      ol < 2 ^ 64 →
      st.depthHit = false →
      (mutateNonterm (gS tf) 0 capacity fuel 0 st c ol).1.ok = true →
      (mutateNonterm (gS tf) 0 capacity fuel 0 st c ol).1.ub = false →
      (mutateNonterm (gS tf) 0 capacity fuel 0 st c ol).1.step =
        st.step + (mutateNonterm (gS tf) 0 capacity fuel 0 st c ol).2 +
          (if (mutateNonterm (gS tf) 0 capacity fuel 0 st c ol).1.depthHit then 0 else 1) ∧
      (∀ j, j < (mutateNonterm (gS tf) 0 capacity fuel 0 st c ol).2 →
        (mutateNonterm (gS tf) 0 capacity fuel 0 st c ol).1.buf (c + j) = 97) := by
  intro fuel
  induction fuel with
  | zero =>
      intro st c ol hol hdh hok hub
      simp only [mutateNonterm] at hub
      exact absurd hub (by simp)
  | succ fuel ih =>
      intro st c ol hol hdh hok hub
      have hset : (((gS tf).sets.get? 0).getD { rules := [], triangular := false }) =
          { rules := [[.bytes [97], .nt 0], []], triangular := tf } := rfl
      simp only [mutateNonterm, hset] at hok hub ⊢
      have hk : ¬ (([[GSymbol.bytes [97], GSymbol.nt 0], []] : List (List GSymbol)).length ≤ 1) := by
        simp
      simp only [if_neg hk] at hok hub ⊢
      by_cases hs : st.step ≥ capacity
      · simp only [if_pos hs] at hok hub ⊢
        refine ⟨by simp, ?_⟩
        intro j hj
        omega
      · simp only [if_neg hs] at hok hub ⊢
        have hlen2 : ([[GSymbol.bytes [97], GSymbol.nt 0], []] : List (List GSymbol)).length = 2 :=
          rfl
        rw [hlen2] at hok hub ⊢
        by_cases hsel2 :
            (dispatchSelect (gS tf) 0 tf 2 st.step { st with step := st.step + 1 }).1 < 2
        · simp only [if_pos hsel2] at hok hub ⊢
          have hv01 : (dispatchSelect (gS tf) 0 tf 2 st.step
              { st with step := st.step + 1 }).1 = 0 ∨
              (dispatchSelect (gS tf) 0 tf 2 st.step { st with step := st.step + 1 }).1 = 1 := by
            omega
          rcases hv01 with hv | hv
          · rw [hv] at hok hub ⊢
            simp only [List.get?, Option.getD_some, ge_iff_le, Nat.zero_le, decide_True,
              runSymbolsWith, if_true] at hok hub ⊢
            by_cases hchk : ([97] : List Nat).length > ol
            · simp only [if_pos hchk] at hok
              exact absurd hok (by simp)
            · simp only [if_neg hchk] at hok hub ⊢
              have hlen97 : ([97] : List Nat).length = 1 := rfl
              rw [hlen97] at hchk hok hub ⊢
              have hwsub : wsub ol 1 = ol - 1 := wsub_eq_sub (by omega) hol
              rw [hwsub] at hok hub ⊢
              have hdd : (writeBytes (dispatchSelect (gS tf) 0 tf 2 st.step
                  { st with step := st.step + 1 }).2 c [97]).depthHit = false := by
                rw [writeBytes_depthHit, dispatchSelect_depthHit]
                exact hdh
              have hih := ih (writeBytes (dispatchSelect (gS tf) 0 tf 2 st.step
                  { st with step := st.step + 1 }).2 c [97]) (c + 1) (ol - 1)
                (by omega) hdd hok hub
              have hframe := (mutateNonterm_genSafe (gS tf) capacity fuel 0
                (writeBytes (dispatchSelect (gS tf) 0 tf 2 st.step
                  { st with step := st.step + 1 }).2 c [97]) (c + 1) (ol - 1)
                (by omega)).2.1
              have hwstep : (writeBytes (dispatchSelect (gS tf) 0 tf 2 st.step
                  { st with step := st.step + 1 }).2 c [97]).step = st.step + 1 := by
                rw [writeBytes_step, dispatchSelect_step]
              constructor
              · rw [hih.1, hwstep]
                omega
              · intro j hj
                rcases Nat.eq_zero_or_pos j with hj0 | hjp
                · subst hj0
                  have hc0 := (hframe c (Or.inl (by omega))).1
                  simp only [Nat.add_zero]
                  rw [hc0]
                  simp [writeBytes]
                · have hcj : c + j = (c + 1) + (j - 1) := by omega
                  rw [hcj]
                  refine hih.2 (j - 1) ?_
                  omega
          · rw [hv] at hok hub ⊢
            simp only [List.get?, Option.getD_some, runSymbolsWith] at hok hub ⊢
            have hdstep : (dispatchSelect (gS tf) 0 tf 2 st.step
                { st with step := st.step + 1 }).2.step = st.step + 1 :=
              dispatchSelect_step _ _ _ _ _ _
            have hddh : (dispatchSelect (gS tf) 0 tf 2 st.step
                { st with step := st.step + 1 }).2.depthHit = st.depthHit :=
              dispatchSelect_depthHit _ _ _ _ _ _
            refine ⟨?_, ?_⟩
            · simp only [hdstep, hddh]
              rw [hdh]
              simp
            · intro j hj
              omega
        · simp only [if_neg hsel2] at hub
          exact absurd hub (by simp)

/-- C5 counterexample.  On the scenario grammar `S → 'a' S | ε`
(triangular per the spec's eligibility criterion), seed 35 makes the
very first dispatch choose the ε rule: the successful, UB-free generate
writes 0 `'a'` bytes yet leaves the walk at length 1 — the final
ε-dispatch also consumed a step slot, so the walk length is the number
of `'a'` bytes plus one, not equal to it. -/
theorem C5_counterexample :
    (chameleon_generate (gS true) w8 35 zbuf 16).2 = 0 ∧
    (chameleon_generate (gS true) w8 35 zbuf 16).1.step ≠
      (chameleon_generate (gS true) w8 35 zbuf 16).2 ∧
    (chameleon_generate (gS true) w8 35 zbuf 16).1.ok = true ∧
    (chameleon_generate (gS true) w8 35 zbuf 16).1.ub = false ∧
    (chameleon_generate (gS true) w8 35 zbuf 16).2 < 16 := by
  refine ⟨by decide, by decide, by decide, by decide, by decide⟩

/-- C5 amended: for the grammar `S → 'a' S, S → ε` (either triangular
flag), every successful (no failed output check), UB-free generate
writes `r` bytes, all of them `'a'`, and leaves the walk length at
`r + 1` when the derivation completed (the closing ε dispatch consumed
one step slot), or at exactly `r` when the walk capacity cut the
recursion (`depthHit`). -/
theorem C5_amended (tf : Bool) (C : Nat) (mem : Nat → Nat) (prng : Nat) (buf : Nat → Nat)
    (OC : Nat) (st' : RunState) (r : Nat)
    (hol : OC < 2 ^ 64)
    (heq : chameleon_generate (gS tf) (chameleon_init mem C) prng buf OC = (st', r))
    (hok : st'.ok = true) (hub : st'.ub = false) :
    st'.step = r + (if st'.depthHit then 0 else 1) ∧ (∀ j, j < r → st'.buf j = 97) := by
  have hA : mutateNonterm (gS tf) 0 C (C + 1) 0
      (initState (chameleon_init mem C) prng buf) 0 OC = (st', r) := heq
  have h := gS_run_shape tf C (C + 1) (initState (chameleon_init mem C) prng buf) 0 OC
    hol rfl (by rw [hA]; exact hok) (by rw [hA]; exact hub)
  rw [hA] at h
  refine ⟨?_, ?_⟩
  · have h1 := h.1
    simpa [initState] using h1
  · intro j hj
    have h2 := h.2 j hj
    simpa using h2

/-- Closed witness for `C5_amended`: triangular flag, seed 35, capacity
8, output capacity 16. -/
theorem C5_amended_witness :
    (chameleon_generate (gS true) (chameleon_init zbuf 8) 35 zbuf 16).1.step =
      (chameleon_generate (gS true) (chameleon_init zbuf 8) 35 zbuf 16).2 +
        (if (chameleon_generate (gS true) (chameleon_init zbuf 8) 35 zbuf 16).1.depthHit
          then 0 else 1) ∧
    (∀ j, j < (chameleon_generate (gS true) (chameleon_init zbuf 8) 35 zbuf 16).2 →
      (chameleon_generate (gS true) (chameleon_init zbuf 8) 35 zbuf 16).1.buf j = 97) :=
  C5_amended true 8 zbuf 35 zbuf 16
    (chameleon_generate (gS true) (chameleon_init zbuf 8) 35 zbuf 16).1
    (chameleon_generate (gS true) (chameleon_init zbuf 8) 35 zbuf 16).2
    (by norm_num) Prod.mk.eta.symm (by decide) (by decide)
